import Mathlib

/-!
Verification of the topic-based selection engine of the morning-brief
repository (`src/run_daily.py`).  Python strings are modelled as `List Char`,
Python sets as lists used through membership, Python dicts as insertion-order
association lists, and timestamps as integers (ISO strings that may fail to
parse are modelled by the sum type `DateStr`).  Case mapping is modelled at
the ASCII level by `Char.toLower`.

Score model: every float constant in the source is a decimal multiple of
0.1 (2.0, 1.0, 0.5, 0.2, 0.8, 0.4, and the 0.5 fallback marker), so scores
are represented exactly as integers in units of one tenth: 2.0 ≡ 20,
1.0 ≡ 10, 0.5 ≡ 5, 0.2 ≡ 2, 0.8 ≡ 8, 0.4 ≡ 4.  Sums and comparisons of
such scores in the source coincide with integer sums and comparisons of
their tenth representations, and the representation is exact where IEEE
doubles would not be, so every theorem about tenths transfers verbatim to
the source's floats.  Thresholds (`min_score`, `min_score_to_watch`) are
likewise given in tenths.
-/

abbrev Str := List Char

/-- Python `str.lower()` (per-character case mapping). -/
def pyLower (s : Str) : Str := s.map Char.toLower

/-- Python `str.strip()`: drop whitespace on both ends. -/
def pyStrip (s : Str) : Str :=
  ((s.dropWhile Char.isWhitespace).reverse.dropWhile Char.isWhitespace).reverse

/-- Python substring test `needle in hay`: some contiguous slice of `hay`
equals `needle` (the empty needle is contained in everything). -/
def containsSub (needle hay : Str) : Bool :=
  (List.range (hay.length + 1)).any fun i => (hay.drop i).take needle.length == needle

/-- Candidate item, as produced by the (external) RSS ingestion:
`{title, link, summary, published}`. -/
structure Item where
  title : Str
  link : Str
  summary : Str
  published : Option Int
deriving DecidableEq

/-- Replace every regex match of `<[^>]+>` (a `<`, one or more non-`>`
characters, then `>`) by a single space, leftmost-first (`re.sub`).  The
fuel argument (instantiated with the string length, an upper bound on the
number of steps) keeps the recursion structural, so that the function
reduces inside the kernel. -/
def stripTagsAux : Nat → Str → Str
  | 0, s => s
  | _ + 1, [] => []
  | fuel + 1, '<' :: rest =>
      let body := rest.takeWhile (fun c => c ≠ '>')
      if body ≠ [] ∧ body.length < rest.length then
        ' ' :: stripTagsAux fuel (rest.drop (body.length + 1))
      else
        '<' :: stripTagsAux fuel rest
  | fuel + 1, c :: rest => c :: stripTagsAux fuel rest

/-- Tag-stripping entry point with enough fuel to process every character. -/
def stripTags (s : Str) : Str := stripTagsAux s.length s

/-- Collapse every maximal whitespace run to a single space
(`re.sub(r"\s+", " ", s)`); the flag records whether the previous
character was part of a run. -/
def collapseWsAux : Bool → Str → Str
  | _, [] => []
  | prevWs, c :: rest =>
      if c.isWhitespace then
        if prevWs then collapseWsAux true rest
        else ' ' :: collapseWsAux true rest
      else c :: collapseWsAux false rest

/-- Python `strip_html`: drop markup tags, collapse whitespace, strip. -/
def strip_html (s : Str) : Str := pyStrip (collapseWsAux false (stripTags s))

/-- Python `_text_blob`: lowercase `f"{title} {strip_html(summary)}"`. -/
def text_blob (it : Item) : Str :=
  pyLower (it.title ++ [' '] ++ strip_html it.summary)

/-- Guard configuration of a topic.  `none` at the use site models the
absent / falsy guard dict. -/
structure Guard where
  must_include_any : List Str
  must_not_include_any : List Str
deriving DecidableEq

/-- Python `guard_pass`: hard constraint filter for a topic.  Term lists are
filtered for truthiness (`if s`, i.e. non-empty) and lowercased before the
substring tests, exactly as in the source. -/
def guard_pass (it : Item) (g : Option Guard) : Bool :=
  match g with
  | none => true
  | some gg =>
      let blob := text_blob it
      let must := (gg.must_include_any.filter (fun s => !s.isEmpty)).map pyLower
      let blocked := (gg.must_not_include_any.filter (fun s => !s.isEmpty)).map pyLower
      if !must.isEmpty && !(must.any (fun m => containsSub m blob)) then false
      else if blocked.any (fun b => containsSub b blob) then false
      else true

/-- Python `_add_hit`: append `term` unless already present. -/
def addHit (l : List Str) (t : Str) : List Str :=
  if t ∈ l then l else l ++ [t]

/-- Value contributed to the score by one base-keyword occurrence `k`
(the claim's reading of `score_item`'s per-term weights: a title hit beats a
blob hit, low-weight keywords are demoted, blank terms contribute nothing). -/
def baseVal (title text : Str) (low_set : List Str) (k : Str) : Int :=
  let kl := pyStrip (pyLower k)
  if kl = [] then 0
  else if containsSub kl title then (if kl ∈ low_set then 5 else 20)
  else if containsSub kl text then (if kl ∈ low_set then 2 else 10)
  else 0

/-- Value contributed to the score by one radar-term occurrence. -/
def radarVal (title text : Str) (rt : Str) : Int :=
  let rl := pyStrip (pyLower rt)
  if rl = [] then 0
  else if containsSub rl title then 8
  else if containsSub rl text then 4
  else 0

/-- Whether one base-keyword occurrence registers a hit at all. -/
def baseMatched (title text : Str) (k : Str) : Bool :=
  let kl := pyStrip (pyLower k)
  if kl = [] then false else (containsSub kl title || containsSub kl text)

/-- Whether one radar-term occurrence registers a hit at all. -/
def radarMatched (title text : Str) (rt : Str) : Bool :=
  let rl := pyStrip (pyLower rt)
  if rl = [] then false else (containsSub rl title || containsSub rl text)

/-- Normalised low-weight keyword set
(`{str(x).lower().strip() for x in low_weight_keywords if str(x).strip()}`). -/
def lowSet (low_weight_keywords : List Str) : List Str :=
  (low_weight_keywords.filter (fun x => !(pyStrip x).isEmpty)).map
    (fun x => pyStrip (pyLower x))

/-- One step of the base-keyword loop of `score_item`: add the tier value
and record the raw term in the hit list (score is accumulated even when the
hit list already contains the term, exactly as in the source). -/
def scoreStep (title text : Str) (low_set : List Str) (acc : Int × List Str) (k : Str) :
    Int × List Str :=
  let kl := pyStrip (pyLower k)
  if kl = [] then acc
  else if containsSub kl title then
    (acc.1 + (if kl ∈ low_set then 5 else 20), addHit acc.2 k)
  else if containsSub kl text then
    (acc.1 + (if kl ∈ low_set then 2 else 10), addHit acc.2 k)
  else acc

/-- One step of the radar-term loop of `score_item`. -/
def radarStep (title text : Str) (acc : Int × List Str) (rt : Str) : Int × List Str :=
  let rl := pyStrip (pyLower rt)
  if rl = [] then acc
  else if containsSub rl title then (acc.1 + 8, addHit acc.2 rt)
  else if containsSub rl text then (acc.1 + 4, addHit acc.2 rt)
  else acc

/-- Python `score_item`: keyword scoring with optional radar terms.
Returns `(score, base_hits, radar_hits)`. -/
def score_item (it : Item) (base_keywords : List Str) (radar_terms : List Str)
    (low_weight_keywords : List Str) : Int × List Str × List Str :=
  let title := pyLower it.title
  let text := text_blob it
  let low := lowSet low_weight_keywords
  let b := base_keywords.foldl (scoreStep title text low) (0, [])
  let r := radar_terms.foldl (radarStep title text) (0, [])
  (b.1 + r.1, b.2, r.2)

/-- Topic configuration record (`min_score` in tenths). -/
structure Topic where
  id : Str
  name : Str
  enabled : Bool
  min_score : Int
  keywords : List Str
  low_weight_keywords : List Str
  guard : Option Guard
deriving DecidableEq

/-- One entry of the PickSet (`ScoredCandidate` of the spec); `item = none`
is the placeholder case.  Score in tenths. -/
structure Entry where
  topic_id : Str
  topic_name : Str
  score : Int
  item : Option Item
  base_hits : List Str
  radar_hits : List Str
  used_radar_terms : List Str
  is_fallback : Bool
deriving DecidableEq

/-- Link of an entry's item; placeholder entries report the empty string
(the source never reads the link of a placeholder). -/
def entryLink (e : Entry) : Str :=
  match e.item with
  | some it => it.link
  | none => []

/-- Insertion-order association list modelling a Python dict: writing an
existing key overwrites in place, a new key is appended. -/
def dinsert {α : Type} (k : Str) (v : α) : List (Str × α) → List (Str × α)
  | [] => [(k, v)]
  | kv :: rest => if kv.1 = k then (k, v) :: rest else kv :: dinsert k v rest

/-- Dict lookup with a default (`d.get(k, dflt)`). -/
def dgetD {α : Type} (k : Str) (dflt : α) : List (Str × α) → α
  | [] => dflt
  | kv :: rest => if kv.1 = k then kv.2 else dgetD k dflt rest

/-- Python `_is_ai_official`: link matches a fixed allow-list of domains. -/
def is_ai_official (link : Str) : Bool :=
  let lk := pyLower link
  ["openai.com/".toList, "blog.google/".toList, "research.google/".toList,
   "deepmind.google/".toList, "nvidianews.nvidia.com/".toList, "nvidia.com/".toList,
   "microsoft.com/".toList, "azure.microsoft.com/".toList, "anthropic.com/".toList,
   "meta.com/".toList, "about.meta.com/".toList].any (fun d => containsSub d lk)

/-- Competitor entity terms of the `watsons_tw` fallback branch, exactly the
character sequences stored in the source file (character 39 is the
apostrophe, character 160 a non-breaking space). -/
def watsonsCompetitors : List Str :=
  ["åº·æ˜¯ç¾".toList,
   "å¯¶é›…".toList,
   "æ¾æœ¬æ¸…".toList,
   "tomod".toList,
   ("tomod".toList ++ [Char.ofNat 39] ++ "s".toList),
   "æ—¥è—¥æœ¬èˆ–".toList,
   "å¤§æ¨¹".toList,
   "å¤§æ¨¹è—¥å±€".toList,
   "æä¸€".toList]

/-- Retail-context terms of the `watsons_tw` fallback branch. -/
def watsonsContext : List Str :=
  ["è—¥å¦".toList,
   "è—¥å±€".toList,
   "é€šè·¯".toList,
   "é–€å¸‚".toList,
   "å±•åº—".toList,
   "é–‹å¹•".toList,
   "é—œåº—".toList,
   "ç‡Ÿæ”¶".toList,
   ("è²¡å".toList ++ [Char.ofNat 160] ++ "±".toList),
   "é›¶å”®".toList,
   "æ“šé»".toList,
   "å•†åœˆ".toList]

/-- Python `pick_fallback_item`: one low-risk fallback item for a topic when
strict rules find nothing.  `accounting` never falls back, `ai_major` only to
official AI-company sources, `watsons_tw` to items whose blob contains both a
competitor entity and a retail-context term; every other topic gets none. -/
def pick_fallback_item (items : List Item) (topic : Topic) (used_links : List Str) :
    Option Item :=
  let text_items := items.filter (fun it => it.link ∉ used_links)
  if topic.id = "accounting".toList then none
  else if topic.id = "ai_major".toList then
    text_items.find? (fun it => is_ai_official it.link)
  else if topic.id = "watsons_tw".toList then
    text_items.find? (fun it =>
      (watsonsCompetitors.any (fun c => containsSub (pyLower c) (text_blob it))) &&
      (watsonsContext.any (fun k => containsSub (pyLower k) (text_blob it))))
  else none

/-- Strict candidate entry for one item admitted to a topic's ranked list. -/
def strictEntry (t : Topic) (radar : List Str) (it : Item) (s : Int)
    (bh rh : List Str) : Entry :=
  { topic_id := t.id, topic_name := t.name, score := s, item := some it,
    base_hits := bh, radar_hits := rh, used_radar_terms := radar,
    is_fallback := false }

/-- Stable descending insertion by score: an element is placed before the
first strictly smaller score, so equal scores keep their original order.
This computes the same list as Python's stable `sort(key=score,
reverse=True)`. -/
def insertDesc (e : Entry) : List Entry → List Entry
  | [] => [e]
  | f :: fs => if f.score ≤ e.score then e :: f :: fs else f :: insertDesc e fs

/-- Stable descending sort by score (insertion sort, structural so that it
reduces in the kernel; extensionally equal to the source's stable sort). -/
def sortDescScore : List Entry → List Entry
  | [] => []
  | e :: es => insertDesc e (sortDescScore es)

/-- Per-topic ranked candidate list: guard-passing items whose score reaches
the topic's `min_score`, sorted by descending score (Topic Ranker, §4.4). -/
def rankedFor (items : List Item) (tmap : Str → List Str) (t : Topic) : List Entry :=
  let radar := tmap t.id
  sortDescScore (items.filterMap (fun it =>
    if guard_pass it t.guard then
      let r := score_item it t.keywords radar t.low_weight_keywords
      if r.1 < t.min_score then none
      else some (strictEntry t radar it r.1 r.2.1 r.2.2)
    else none))

/-- The per-topic ranked dict, built in enabled-topic order
(`per_topic_ranked` of the source). -/
def buildDict (items : List Item) (tmap : Str → List Str) (enabled : List Topic) :
    List (Str × List Entry) :=
  enabled.foldl (fun d t => dinsert t.id (rankedFor items tmap t) d) []

/-- Fallback entry appended by Pass 1 (score is the fixed 0.5 marker,
5 tenths). -/
def fallbackEntry (t : Topic) (tmap : Str → List Str) (fb : Item) : Entry :=
  { topic_id := t.id, topic_name := t.name, score := 5, item := some fb,
    base_hits := [], radar_hits := [], used_radar_terms := tmap t.id,
    is_fallback := true }

/-- Placeholder entry appended by Pass 1 when even the fallback yields
nothing. -/
def placeholderEntry (t : Topic) (tmap : Str → List Str) : Entry :=
  { topic_id := t.id, topic_name := t.name, score := 0, item := none,
    base_hits := [], radar_hits := [], used_radar_terms := tmap t.id,
    is_fallback := false }

/-- Inner loop of Pass 1 over one topic's ranked list: skip used links, pick
until the floor `min_per_topic` is reached (the pick happens before the
break, exactly as in the source, so even `min_per_topic ≤ 0` picks one
available candidate).  Returns the picks, the updated used-link set and the
final count. -/
def floorLoop (min_per_topic : Int) : List Entry → List Str → Int →
    List Entry × List Str × Int
  | [], used, count => ([], used, count)
  | c :: rest, used, count =>
      if entryLink c ∈ used then floorLoop min_per_topic rest used count
      else
        let used' := entryLink c :: used
        if count + 1 ≥ min_per_topic then ([c], used', count + 1)
        else
          let r := floorLoop min_per_topic rest used' (count + 1)
          (c :: r.1, r.2.1, r.2.2)

/-- Pass-1 treatment of one topic: floor picks from its ranked list, then a
fallback item or a placeholder if the floor was not met.  Returns the
topic's contiguous block and the updated used-link set. -/
def topicBlock (items : List Item) (tmap : Str → List Str) (min_per_topic : Int)
    (d : List (Str × List Entry)) (t : Topic) (used : List Str) :
    List Entry × List Str :=
  let ranked := dgetD t.id [] d
  let r := floorLoop min_per_topic ranked used 0
  if r.2.2 < min_per_topic then
    match pick_fallback_item items t r.2.1 with
    | some fb => (r.1 ++ [fallbackEntry t tmap fb], fb.link :: r.2.1)
    | none => (r.1 ++ [placeholderEntry t tmap], r.2.1)
  else (r.1, r.2.1)

/-- Pass 1 over the enabled topics in configured order, accumulating the
picked entries and the used-link set. -/
def pass1 (items : List Item) (tmap : Str → List Str) (min_per_topic : Int)
    (d : List (Str × List Entry)) : List Topic → List Entry → List Str →
    List Entry × List Str
  | [], acc, used => (acc, used)
  | t :: ts, acc, used =>
      let b := topicBlock items tmap min_per_topic d t used
      pass1 items tmap min_per_topic d ts (acc ++ b.1) b.2

/-- Number of non-null picks (`_real_count` of the source). -/
def realCountZ (es : List Entry) : Int :=
  ((es.filter (fun e => e.item.isSome)).length : Int)

/-- Pass-2 candidate pool: every ranked candidate of every topic whose link
is not yet used, in dict order. -/
def remainingOf (d : List (Str × List Entry)) (used : List Str) : List Entry :=
  d.foldl (fun acc kv => acc ++ kv.2.filter (fun c => entryLink c ∉ used)) []

/-- Pass-2 fill loop: stop as soon as `max_items` non-null picks are
reached, otherwise append the next unused candidate and mark its link. -/
def fillLoop (max_items : Int) : List Entry → List Entry → List Str → List Entry
  | [], acc, _ => acc
  | c :: rest, acc, used =>
      if realCountZ acc ≥ max_items then acc
      else if entryLink c ∈ used then fillLoop max_items rest acc used
      else fillLoop max_items rest (acc ++ [c]) (entryLink c :: used)

/-- Python `pick_by_topic`: the Coverage Allocator.  Pass 1 guarantees the
per-topic floor (with fallback and placeholder), Pass 2 fills the remaining
global capacity with the best unused strict candidates. -/
def pick_by_topic (items : List Item) (topics : List Topic) (max_items : Int)
    (min_per_topic : Int) (tmap : Str → List Str) : List Entry :=
  let enabled := topics.filter (fun t => t.enabled)
  if enabled.isEmpty then []
  else
    let d := buildDict items tmap enabled
    let p := pass1 items tmap min_per_topic d enabled [] []
    if realCountZ p.1 < max_items then
      fillLoop max_items (sortDescScore (remainingOf d p.2)) p.1 p.2
    else p.1

/-- Stored timestamp string: either a valid ISO timestamp (carrying the
instant it denotes, in hours) or an unparseable string.
`datetime.fromisoformat` succeeds exactly on the valid case. -/
inductive DateStr where
  | valid : Int → DateStr
  | invalid : Str → DateStr
deriving DecidableEq

/-- Python `datetime.isoformat()` on a valid instant. -/
def isoformat (t : Int) : DateStr := .valid t

/-- Python `datetime.fromisoformat`, `none` modelling the raised
`ValueError`. -/
def fromisoformat : DateStr → Option Int
  | .valid t => some t
  | .invalid _ => none

/-- Persisted watchlist entry.  The maturation fields (`checked_at`,
`threads_matched_terms`, `fermented`) are absent (`none` / `[]`) until the
entry is moved to `done`. -/
structure WEntry where
  topic_id : Str
  topic_name : Str
  title : Str
  link : Str
  published : Option DateStr
  saved_at : DateStr
  due_at : DateStr
  score : Int
  base_hits : List Str
  checked_at : Option DateStr := none
  threads_matched_terms : List Str := []
  fermented : Option Bool := none
deriving DecidableEq

/-- Persisted watchlist state `{watching: [...], done: [...]}`. -/
structure WState where
  watching : List WEntry
  done : List WEntry
deriving DecidableEq

/-- Delay-tracking configuration (`radar.delay_tracking` of the config;
`min_score_to_watch` in tenths). -/
structure DelayCfg where
  enabled : Bool
  delay_hours : Int
  max_candidates_per_topic : Int
  min_score_to_watch : Int
deriving DecidableEq

/-- Summary dict returned by `update_delayed_watchlist`. -/
structure UpdateStats where
  enabled : Bool
  added_today : Int
  matured_checked : Int
  fermented : Int
  watching_now : Int
deriving DecidableEq

/-- Links already known to the persisted state (truthy links of `watching`
then `done`), the `seen_links` set. -/
def seenLinks (state : WState) : List Str :=
  (state.watching ++ state.done).filterMap
    (fun w => if w.link = [] then none else some w.link)

/-- New watching entry created from today's pick `p` / item `it`. -/
def mkWatchEntry (tid : Str) (p : Entry) (it : Item) (now delay_hours : Int) : WEntry :=
  { topic_id := tid, topic_name := p.topic_name, title := it.title,
    link := it.link, published := it.published.map isoformat,
    saved_at := isoformat now, due_at := isoformat (now + delay_hours),
    score := p.score, base_hits := p.base_hits }

/-- Candidate-collection step of `update_delayed_watchlist` (one pick):
skip null items, low scores, blank or already-seen links; count the
candidate against its topic (the count is incremented even when the cap
then skips it, as in the source) and append it when within the cap. -/
def collectStep (cfg : DelayCfg) (now : Int)
    (st : List WEntry × List Str × List (Str × Int)) (p : Entry) :
    List WEntry × List Str × List (Str × Int) :=
  match p.item with
  | none => st
  | some it =>
      if p.score < cfg.min_score_to_watch then st
      else if it.link = [] ∨ it.link ∈ st.2.1 then st
      else
        let tid := if p.topic_id = [] then "unknown".toList else p.topic_id
        let c := dgetD tid 0 st.2.2 + 1
        let counts' := dinsert tid c st.2.2
        if c > cfg.max_candidates_per_topic then (st.1, st.2.1, counts')
        else (st.1 ++ [mkWatchEntry tid p it now cfg.delay_hours],
              st.2.1 ++ [it.link], counts')

/-- Current trend terms, normalised
(`[str(x).strip() for x in terms if str(x).strip()]`, then lowercased). -/
def termsOf (threads_terms_all : List Str) : List Str :=
  ((threads_terms_all.map pyStrip).filter (fun t => !t.isEmpty)).map pyLower

/-- Lowercased `f"{title} {link}"` text of a watched entry. -/
def watchBlob (w : WEntry) : Str :=
  pyLower (w.title ++ [' '] ++ w.link)

/-- Trend terms matching a watched entry (`t and t in blob`). -/
def matchedTerms (terms_l : List Str) (w : WEntry) : List Str :=
  terms_l.filter (fun t => !t.isEmpty && containsSub t (watchBlob w))

/-- Whether a watching entry stays in `watching` this run: kept when its
`due_at` does not parse (the source's `try/except` keeps it) or is still in
the future (`due_at > now`). -/
def keepEntry (now : Int) (w : WEntry) : Bool :=
  match fromisoformat w.due_at with
  | none => true
  | some d => decide (now < d)

/-- Matured copy of a due watching entry moved to `done`. -/
def matureEntry (now : Int) (terms_l : List Str) (w : WEntry) : WEntry :=
  { w with checked_at := some (isoformat now),
           threads_matched_terms := (matchedTerms terms_l w).take 10,
           fermented := some (!(matchedTerms terms_l w).isEmpty) }

/-- Maturation step of `update_delayed_watchlist` (one watching entry):
keep it, or move its matured copy to `done`, counting matured and fermented
entries. -/
def matureStep (now : Int) (terms_l : List Str)
    (st : List WEntry × List WEntry × Int × Int) (w : WEntry) :
    List WEntry × List WEntry × Int × Int :=
  if keepEntry now w then (st.1 ++ [w], st.2.1, st.2.2.1, st.2.2.2)
  else (st.1, st.2.1 ++ [matureEntry now terms_l w], st.2.2.1 + 1,
        st.2.2.2 + (if (matchedTerms terms_l w).isEmpty then 0 else 1))

/-- Sum of the per-topic candidate counters (`sum(topic_counts.values())`). -/
def sumCounts (counts : List (Str × Int)) : Int :=
  counts.foldl (fun a kv => a + kv.2) 0

/-- Python `update_delayed_watchlist`, with the remote JSON store made
explicit: the persisted state is an input and the written state is returned
alongside the stats dict.  When tracking is disabled nothing is written. -/
def update_delayed_watchlist (cfg : DelayCfg) (picks : List Entry) (now : Int)
    (threads_terms_all : List Str) (state : WState) : WState × UpdateStats :=
  if !cfg.enabled then (state, ⟨false, 0, 0, 0, 0⟩)
  else
    let col := picks.foldl (collectStep cfg now) (state.watching, seenLinks state, [])
    let terms_l := termsOf threads_terms_all
    let mat := col.1.foldl (matureStep now terms_l) ([], state.done, 0, 0)
    let done2 := mat.2.1.drop (mat.2.1.length - 500)
    (⟨mat.1, done2⟩,
     ⟨true, sumCounts col.2.2, mat.2.2.1, mat.2.2.2, (mat.1.length : Int)⟩)

/-- First-occurrence deduplication, insertion order preserved (the effect of
repeated `_add_hit` on an empty list). -/
def dedupFirst : List Str → List Str
  | [] => []
  | x :: xs => x :: (dedupFirst xs).filter (fun y => y ≠ x)

/-- All links stored in a watchlist state, across `watching` and `done`. -/
def linksOf (s : WState) : List Str :=
  (s.watching ++ s.done).map (fun w => w.link)

/-- Inputs of one run of the delay tracker. -/
structure RunIn where
  cfg : DelayCfg
  picks : List Entry
  now : Int
  terms : List Str

/-- State reached after one run of the delay tracker. -/
def applyRun (s : WState) (r : RunIn) : WState :=
  (update_delayed_watchlist r.cfg r.picks r.now r.terms s).1

/-- State reached after a sequence of consecutive runs. -/
def runFold (s : WState) (rs : List RunIn) : WState :=
  rs.foldl applyRun s

/-- Pass-1 portion of the PickSet for given allocator inputs. -/
def pass1Entries (items : List Item) (topics : List Topic) (min_per_topic : Int)
    (tmap : Str → List Str) : List Entry :=
  let enabled := topics.filter (fun t => t.enabled)
  (pass1 items tmap min_per_topic (buildDict items tmap enabled) enabled [] []).1

/-- Scenario A item: title "AI breakthrough". -/
def exItemA : Item := ⟨"AI breakthrough".toList, "ea".toList, [], none⟩

/-- Scenario B item: title "tech news", summary mentioning AI. -/
def exItemB : Item := ⟨"tech news".toList, "eb".toList, "AI regulation".toList, none⟩

/-- Scenario A/B topic: `keywords=["AI"]`, `min_score=2` (20 tenths). -/
def exTopicAI : Topic :=
  ⟨"ai".toList, "AI".toList, true, 20, ["AI".toList], [], none⟩

/-- Scenario C item, blob containing "rumor". -/
def exItemC : Item := ⟨"x".toList, "ec".toList, "a rumor today".toList, none⟩

/-- Scenario C guard: `must_not_include_any=["rumor"]`. -/
def exGuardC : Guard := ⟨[], ["rumor".toList]⟩

/-- Neutral item for the guard counterexample. -/
def exItemP : Item := ⟨"a".toList, "el".toList, [], none⟩

/-- Guard whose `must_not_include_any` holds only the empty string. -/
def exGuardEmpty : Guard := ⟨[], [[]]⟩

/-- Scenario D item (matches no keyword of the accounting topic). -/
def exItemD : Item := ⟨"hello".toList, "ed".toList, [], none⟩

/-- Scenario D topic: id "accounting" (no-fallback policy). -/
def exTopicAcct : Topic :=
  ⟨"accounting".toList, "ACC".toList, true, 10, ["zz".toList], [], none⟩

/-- Empty trend-term map used by the concrete scenarios. -/
def exTmap : Str → List Str := fun _ => []

/-- Scenario E item 1: scores 5.0 for topic A. -/
def exItemE1 : Item := ⟨"aa bb".toList, "l1".toList, "cc".toList, none⟩

/-- Scenario E item 2: scores 3.0 for topic B. -/
def exItemE2 : Item := ⟨"dd".toList, "l2".toList, "ee".toList, none⟩

/-- Scenario E item 3: scores 4.0 for topic A (the best remaining). -/
def exItemE3 : Item := ⟨"aa bb".toList, "l3".toList, [], none⟩

/-- Scenario E topic A. -/
def exTopicEA : Topic :=
  ⟨"ta".toList, "TA".toList, true, 10,
   ["aa".toList, "bb".toList, "cc".toList], [], none⟩

/-- Scenario E topic B. -/
def exTopicEB : Topic :=
  ⟨"tb".toList, "TB".toList, true, 10, ["dd".toList, "ee".toList], [], none⟩

/-- Topic with one matching item, used for the `max_items` counterexample. -/
def exTopicT3 : Topic :=
  ⟨"t3".toList, "T3".toList, true, 10, ["hello".toList], [], none⟩

/-- Topic with `min_score = 0` and no keywords: admits items at score 0,
used for the score-threshold counterexample. -/
def exTopicT7 : Topic := ⟨"t7".toList, "T7".toList, true, 0, [], [], none⟩

/-- Delay-tracking configuration used by the concrete watchlist runs
(enabled, 48 h delay, cap 3 per topic, watch threshold 2.5 = 25 tenths). -/
def exDelayCfg : DelayCfg := ⟨true, 48, 3, 25⟩

/-- Watching entry whose `due_at` (hour 10) is already in the past at hour
20 and whose title matches the trend term "AI". -/
def exW1 : WEntry :=
  { topic_id := "t".toList, topic_name := "T".toList,
    title := "big ai news".toList, link := "lw".toList, published := none,
    saved_at := isoformat 0, due_at := isoformat 10, score := 30,
    base_hits := [] }

/-- Watching entry whose stored `due_at` string does not parse. -/
def exW2 : WEntry :=
  { exW1 with link := "lw2".toList, due_at := DateStr.invalid ("zzz".toList) }

/-- Concrete persisted watchlist state. -/
def exWState : WState := ⟨[exW1, exW2], []⟩

/-- Pick whose item link `lw` is already tracked by `exWState`. -/
def exPickOld : Entry :=
  { topic_id := "t".toList, topic_name := "T".toList, score := 30,
    item := some ⟨"x".toList, "lw".toList, [], none⟩, base_hits := [],
    radar_hits := [], used_radar_terms := [], is_fallback := false }

/-- Item with a strict keyword hit for the floor-then-fallback scenario. -/
def exItemF1 : Item := ⟨"qq".toList, "lf1".toList, [], none⟩

/-- Item matching no keyword but linking to an official AI domain. -/
def exItemF2 : Item := ⟨"zz".toList, "https://openai.com/x".toList, [], none⟩

/-- Topic `ai_major` (official-source fallback policy) used to exercise a
block holding a floor pick followed by a fallback entry. -/
def exTopicAim : Topic :=
  ⟨"ai_major".toList, "AIM".toList, true, 10, ["qq".toList], [], none⟩

/-- No two non-null entries share a link. -/
def NoDupLinks (es : List Entry) : Prop :=
  List.Pairwise
    (fun a b => ∀ ia ib : Item, a.item = some ia → b.item = some ib → ia.link ≠ ib.link) es

/-- Invariant of the allocator loops: the accumulated entries have pairwise
distinct links and every picked link is recorded in the used set. -/
def LinksOK (es : List Entry) (used : List Str) : Prop :=
  NoDupLinks es ∧ ∀ e ∈ es, ∀ it : Item, e.item = some it → it.link ∈ used

/-- Well-formedness of the per-topic ranked dict: every stored entry is a
strict (non-fallback, non-null) candidate keyed by its topic id, admitted at
some enabled topic's threshold. -/
def GoodPairs (enabled : List Topic) (d : List (Str × List Entry)) : Prop :=
  ∀ kv ∈ d, ∀ e ∈ kv.2, e.is_fallback = false ∧ (∃ it : Item, e.item = some it) ∧
    e.topic_id = kv.1 ∧ ∃ t ∈ enabled, t.id = kv.1 ∧ t.min_score ≤ e.score

/-- Entry-shape facts maintained by the allocator: fallback entries carry
the 0.5 marker (5 tenths) and an item, placeholders carry score 0 and no
fallback flag, and strict entries reach some enabled topic's threshold. -/
def EProps (enabled : List Topic) (e : Entry) : Prop :=
  (e.is_fallback = true → e.score = 5 ∧ e.item ≠ none) ∧
  (e.item = none → e.score = 0 ∧ e.is_fallback = false) ∧
  (e.is_fallback = false → e.item ≠ none → ∃ t ∈ enabled, t.min_score ≤ e.score)

theorem scoreStep_eq (title text : Str) (low : List Str) (acc : Int × List Str) (k : Str) :
    scoreStep title text low acc k =
      (acc.1 + baseVal title text low k,
       if baseMatched title text k then addHit acc.2 k else acc.2) := by
  unfold scoreStep baseVal baseMatched
  by_cases h1 : pyStrip (pyLower k) = []
  · simp [h1]
  · by_cases h2 : containsSub (pyStrip (pyLower k)) title
    · simp [h1, h2]
    · by_cases h3 : containsSub (pyStrip (pyLower k)) text
      · simp [h1, h2, h3]
      · simp [h1, h2, h3]

theorem radarStep_eq (title text : Str) (acc : Int × List Str) (rt : Str) :
    radarStep title text acc rt =
      (acc.1 + radarVal title text rt,
       if radarMatched title text rt then addHit acc.2 rt else acc.2) := by
  unfold radarStep radarVal radarMatched
  by_cases h1 : pyStrip (pyLower rt) = []
  · simp [h1]
  · by_cases h2 : containsSub (pyStrip (pyLower rt)) title
    · simp [h1, h2]
    · by_cases h3 : containsSub (pyStrip (pyLower rt)) text
      · simp [h1, h2, h3]
      · simp [h1, h2, h3]

theorem scoreStep_fold (title text : Str) (low : List Str) (ks : List Str) :
    ∀ (s : Int) (h : List Str),
      ks.foldl (scoreStep title text low) (s, h) =
        (s + (ks.map (baseVal title text low)).sum,
         (ks.filter (baseMatched title text)).foldl addHit h) := by
  induction ks with
  | nil => simp
  | cons k ks ih =>
      intro s h
      simp only [List.foldl_cons, List.map_cons, List.sum_cons, List.filter_cons,
        scoreStep_eq]
      by_cases hm : baseMatched title text k
      · simp only [hm, if_true, ih, add_assoc, List.foldl_cons]
      · simp only [hm, if_false, ih, add_assoc, Bool.false_eq_true]

theorem radarStep_fold (title text : Str) (rts : List Str) :
    ∀ (s : Int) (h : List Str),
      rts.foldl (radarStep title text) (s, h) =
        (s + (rts.map (radarVal title text)).sum,
         (rts.filter (radarMatched title text)).foldl addHit h) := by
  induction rts with
  | nil => simp
  | cons rt rts ih =>
      intro s h
      simp only [List.foldl_cons, List.map_cons, List.sum_cons, List.filter_cons,
        radarStep_eq]
      by_cases hm : radarMatched title text rt
      · simp only [hm, if_true, ih, add_assoc, List.foldl_cons]
      · simp only [hm, if_false, ih, add_assoc, Bool.false_eq_true]

theorem addHit_fold (l : List Str) : ∀ acc : List Str,
    l.foldl addHit acc = acc ++ (dedupFirst l).filter (fun y => y ∉ acc) := by
  induction l with
  | nil =>
      intro acc
      simp [dedupFirst]
  | cons x xs ih =>
      intro acc
      simp only [List.foldl_cons, dedupFirst, List.filter_cons]
      by_cases hx : x ∈ acc
      · have h1 : addHit acc x = acc := by simp [addHit, hx]
        have h2 : (decide (x ∉ acc)) = false := by simp [hx]
        rw [h1, ih, h2]
        simp only [Bool.false_eq_true, if_false]
        rw [List.filter_filter]
        congr 1
        apply List.filter_congr
        intro y _
        by_cases hyx : y = x
        · subst hyx
          simp [hx]
        · simp [hyx]
      · have h1 : addHit acc x = acc ++ [x] := by simp [addHit, hx]
        have h2 : (decide (x ∉ acc)) = true := by simp [hx]
        rw [h1, ih, h2]
        simp only [if_true]
        rw [List.append_assoc, List.singleton_append, List.filter_filter]
        congr 2
        apply List.filter_congr
        intro y _
        by_cases hya : y ∈ acc
        · simp [hya]
        · by_cases hyx : y = x
          · subst hyx
            simp [hya]
          · simp [hya, hyx]

/-- C5: `score_item` returns the sum over all keyword/term occurrences of
the tier weights (in tenths: base keyword 20 title / 10 blob, low-weight
keyword 5 title / 2 blob, radar term 8 title / 4 blob; the title tier beats
the blob tier and each occurrence contributes through at most one tier;
blank terms contribute nothing), and the hit lists are the matched terms
deduplicated with insertion order preserved.  Scenario A scores 2.0 (20)
with `base_hits=["AI"]` and is admitted by the ranker; Scenario B scores
1.0 (10) and is rejected (below `min_score` 2.0). -/
theorem C5_score_item_weights :
    (∀ (it : Item) (bks rts lws : List Str),
      score_item it bks rts lws =
        ((bks.map (baseVal (pyLower it.title) (text_blob it) (lowSet lws))).sum +
           (rts.map (radarVal (pyLower it.title) (text_blob it))).sum,
         dedupFirst (bks.filter (baseMatched (pyLower it.title) (text_blob it))),
         dedupFirst (rts.filter (radarMatched (pyLower it.title) (text_blob it))))) ∧
    score_item exItemA ["AI".toList] [] [] = (20, ["AI".toList], []) ∧
    rankedFor [exItemA] exTmap exTopicAI =
      [strictEntry exTopicAI [] exItemA 20 ["AI".toList] []] ∧
    score_item exItemB ["AI".toList] [] [] = (10, ["AI".toList], []) ∧
    rankedFor [exItemB] exTmap exTopicAI = [] := by
  refine ⟨?_, by decide, by decide, by decide, by decide⟩
  intro it bks rts lws
  show (let b := bks.foldl (scoreStep (pyLower it.title) (text_blob it) (lowSet lws)) (0, []);
        let r := rts.foldl (radarStep (pyLower it.title) (text_blob it)) (0, []);
        (b.1 + r.1, b.2, r.2)) = _
  rw [scoreStep_fold, radarStep_fold, addHit_fold, addHit_fold]
  simp

/-- C6 counterexample: the claim states that `guard_pass` returns false
whenever some lowercased term of `must_not_include_any` occurs in the blob.
The empty-string term occurs in every blob (Python substring semantics),
yet the source filters blank terms out first and returns true. -/
theorem C6_cex_empty_blocked_term :
    guard_pass exItemP (some exGuardEmpty) = true ∧
    ∃ b ∈ exGuardEmpty.must_not_include_any,
      containsSub (pyLower b) (text_blob exItemP) = true := by
  exact ⟨by decide, by decide⟩

/-- C6 amended: `guard_pass` is true for an absent guard; for a present
guard it is false exactly when either `must_include_any` holds some
non-empty term and no non-empty lowercased term of it occurs in the blob,
or some non-empty lowercased term of `must_not_include_any` occurs in the
blob (empty-string terms are ignored, the only change the counterexample
forces).  Scenario C rejects the "rumor" item regardless of score
(`guard_pass` never reads a score). -/
theorem C6_guard_pass_spec :
    (∀ it : Item, guard_pass it none = true) ∧
    (∀ (it : Item) (g : Guard),
      guard_pass it (some g) = false ↔
        (((∃ m ∈ g.must_include_any, m ≠ []) ∧
           ∀ m ∈ g.must_include_any, m ≠ [] →
             containsSub (pyLower m) (text_blob it) = false) ∨
         (∃ b ∈ g.must_not_include_any, b ≠ [] ∧
            containsSub (pyLower b) (text_blob it) = true))) ∧
    guard_pass exItemC (some exGuardC) = false := by
  refine ⟨fun it => rfl, ?_, by decide⟩
  intro it g

  simp only [guard_pass]
  split_ifs with h1 h2
  · simp only [eq_self_iff_true, true_iff]
    left
    simp only [Bool.and_eq_true, Bool.not_eq_true', List.isEmpty_eq_false, List.any_eq_false,
      List.mem_map, List.mem_filter, Bool.not_eq_true, List.isEmpty_eq_true] at h1
    obtain ⟨h1a, h1b⟩ := h1
    refine ⟨?_, fun m hm hne => h1b _ ⟨m, ⟨hm, by simpa using hne⟩, rfl⟩⟩
    by_contra hno
    push_neg at hno
    apply h1a
    rw [List.map_eq_nil_iff, List.filter_eq_nil_iff]
    intro a ha
    simp [hno a ha]
  · simp only [eq_self_iff_true, true_iff]
    right
    simp only [List.any_eq_true, List.mem_map, List.mem_filter, Bool.and_eq_true,
      Bool.not_eq_true', List.isEmpty_eq_false] at h2
    obtain ⟨x, ⟨b, ⟨hb, hbne⟩, rfl⟩, hcont⟩ := h2
    exact ⟨b, hb, hbne, hcont⟩
  · simp only [false_iff]
    intro hrhs
    simp only [Bool.and_eq_true, Bool.not_eq_true', List.isEmpty_eq_false, List.any_eq_false,
      not_and, ne_eq, not_forall, Bool.not_eq_false] at h1
    simp only [List.any_eq_true, List.mem_map, List.mem_filter, Bool.and_eq_true,
      Bool.not_eq_true', List.isEmpty_eq_false, not_exists, not_and] at h2
    rcases hrhs with ⟨⟨m, hm, hmne⟩, hall⟩ | ⟨b, hb, hbne, hcont⟩
    · by_cases hmu : List.map pyLower (List.filter (fun s => !List.isEmpty s) g.must_include_any) = []
      · rw [List.map_eq_nil_iff, List.filter_eq_nil_iff] at hmu
        have := hmu m hm
        simp [hmne] at this
      · obtain ⟨x, hxmem, hcx⟩ := h1 hmu
        rw [not_not] at hcx
        obtain ⟨a, haf, rfl⟩ := List.mem_map.1 hxmem
        obtain ⟨ha, hane⟩ := List.mem_filter.1 haf
        have hane' : a ≠ [] := by simpa using hane
        rw [hall a ha hane'] at hcx
        simp at hcx
    · have := h2 (pyLower b) ⟨b, ⟨hb, by simpa using hbne⟩, rfl⟩
      rw [hcont] at this
      simp at this

theorem insertDesc_mem (e x : Entry) (l : List Entry) :
    x ∈ insertDesc e l ↔ x = e ∨ x ∈ l := by
  induction l with
  | nil => simp [insertDesc]
  | cons f fs ih =>
      simp only [insertDesc]
      split_ifs with h
      · simp [List.mem_cons]
      · simp only [List.mem_cons, ih]
        tauto

theorem sortDescScore_mem (x : Entry) (l : List Entry) :
    x ∈ sortDescScore l ↔ x ∈ l := by
  induction l with
  | nil => simp [sortDescScore]
  | cons e es ih =>
      simp only [sortDescScore, insertDesc_mem, ih, List.mem_cons]

theorem insertDesc_pairwise (e : Entry) (l : List Entry)
    (h : List.Pairwise (fun a b => b.score ≤ a.score) l) :
    List.Pairwise (fun a b => b.score ≤ a.score) (insertDesc e l) := by
  induction l with
  | nil => simp [insertDesc]
  | cons f fs ih =>
      simp only [insertDesc]
      rcases List.pairwise_cons.1 h with ⟨hf, hfs⟩
      split_ifs with hle
      · refine List.pairwise_cons.2 ⟨?_, h⟩
        intro b hb
        rcases List.mem_cons.1 hb with rfl | hb
        · exact hle
        · exact le_trans (hf b hb) hle
      · refine List.pairwise_cons.2 ⟨?_, ih hfs⟩
        intro b hb
        rcases (insertDesc_mem e b fs).1 hb with rfl | hb
        · exact le_of_lt (lt_of_not_le hle)
        · exact hf b hb

theorem sortDescScore_pairwise (l : List Entry) :
    List.Pairwise (fun a b => b.score ≤ a.score) (sortDescScore l) := by
  induction l with
  | nil => exact List.Pairwise.nil
  | cons e es ih => exact insertDesc_pairwise e _ ih

theorem mem_dinsert {α : Type} (k : Str) (v : α) (d : List (Str × α)) :
    ∀ kv ∈ dinsert k v d, kv = (k, v) ∨ kv ∈ d := by
  induction d with
  | nil => simp [dinsert]
  | cons hd tl ih =>
      intro kv hkv
      simp only [dinsert] at hkv
      split_ifs at hkv with h
      · rcases List.mem_cons.1 hkv with rfl | hkv
        · exact Or.inl rfl
        · exact Or.inr (List.mem_cons_of_mem _ hkv)
      · rcases List.mem_cons.1 hkv with rfl | hkv
        · exact Or.inr (List.mem_cons_self _ _)
        · rcases ih kv hkv with h' | h'
          · exact Or.inl h'
          · exact Or.inr (List.mem_cons_of_mem _ h')

theorem dgetD_cases {α : Type} (k : Str) (dflt : α) (d : List (Str × α)) :
    dgetD k dflt d = dflt ∨ ∃ kv ∈ d, kv.1 = k ∧ dgetD k dflt d = kv.2 := by
  induction d with
  | nil => exact Or.inl rfl
  | cons hd tl ih =>
      simp only [dgetD]
      split_ifs with h
      · exact Or.inr ⟨hd, List.mem_cons_self _ _, h, rfl⟩
      · rcases ih with h' | ⟨kv, hkv, hk, he⟩
        · exact Or.inl h'
        · exact Or.inr ⟨kv, List.mem_cons_of_mem _ hkv, hk, he⟩

theorem rankedFor_mem (items : List Item) (tmap : Str → List Str) (t : Topic)
    (e : Entry) (he : e ∈ rankedFor items tmap t) :
    e.is_fallback = false ∧ (∃ it : Item, e.item = some it) ∧
      e.topic_id = t.id ∧ t.min_score ≤ e.score := by
  unfold rankedFor at he
  rw [sortDescScore_mem] at he
  obtain ⟨it, _hit, heq⟩ := List.mem_filterMap.1 he
  by_cases hg : guard_pass it t.guard = true
  · simp only [hg, if_true] at heq
    by_cases hs : (score_item it t.keywords (tmap t.id) t.low_weight_keywords).1 < t.min_score
    · simp [hs] at heq
    · simp only [hs, if_false] at heq
      cases heq
      exact ⟨rfl, ⟨it, rfl⟩, rfl, le_of_not_lt hs⟩
  · simp [hg] at heq

theorem buildDict_aux_good (items : List Item) (tmap : Str → List Str)
    (enabled : List Topic) (ts : List Topic) :
    ∀ d : List (Str × List Entry), GoodPairs enabled d → (∀ t ∈ ts, t ∈ enabled) →
      GoodPairs enabled (ts.foldl (fun d t => dinsert t.id (rankedFor items tmap t) d) d) := by
  induction ts with
  | nil => intro d hd _; exact hd
  | cons t ts ih =>
      intro d hd hts
      simp only [List.foldl_cons]
      refine ih _ ?_ (fun u hu => hts u (List.mem_cons_of_mem _ hu))
      intro kv hkv e he
      rcases mem_dinsert _ _ _ kv hkv with rfl | hkv'
      · obtain ⟨h1, h2, h3, h4⟩ := rankedFor_mem items tmap t e he
        exact ⟨h1, h2, h3, t, hts t (List.mem_cons_self _ _), rfl, h4⟩
      · exact hd kv hkv' e he

theorem buildDict_good (items : List Item) (tmap : Str → List Str)
    (enabled : List Topic) : GoodPairs enabled (buildDict items tmap enabled) := by
  unfold buildDict
  exact buildDict_aux_good items tmap enabled enabled [] (by intro kv h; cases h)
    (fun _ h => h)

theorem dgetD_good (enabled : List Topic) (d : List (Str × List Entry))
    (hd : GoodPairs enabled d) (k : Str) (e : Entry) (he : e ∈ dgetD k [] d) :
    e.is_fallback = false ∧ (∃ it : Item, e.item = some it) ∧
      e.topic_id = k ∧ ∃ t ∈ enabled, t.id = k ∧ t.min_score ≤ e.score := by
  rcases dgetD_cases k [] d with h | ⟨kv, hkv, hk, hv⟩
  · rw [h] at he; cases he
  · rw [hv] at he
    obtain ⟨h1, h2, h3, t, ht, hid, hs⟩ := hd kv hkv e he
    exact ⟨h1, h2, hk ▸ h3, t, ht, hk ▸ hid, hs⟩

theorem LinksOK_nil : LinksOK [] [] := by
  constructor
  · exact List.Pairwise.nil
  · intro e he; cases he

theorem LinksOK_mono (es : List Entry) (used used' : List Str)
    (h : LinksOK es used) (hsub : ∀ l ∈ used, l ∈ used') : LinksOK es used' := by
  exact ⟨h.1, fun e he it hit => hsub _ (h.2 e he it hit)⟩

theorem LinksOK_snoc (es : List Entry) (used : List Str) (h : LinksOK es used)
    (c : Entry) (used' : List Str) (hsub : ∀ l ∈ used, l ∈ used')
    (hfresh : ∀ it : Item, c.item = some it → it.link ∉ used)
    (hin : ∀ it : Item, c.item = some it → it.link ∈ used') :
    LinksOK (es ++ [c]) used' := by
  constructor
  · refine List.pairwise_append.2 ⟨h.1, List.pairwise_singleton _ _, ?_⟩
    intro a ha b hb ia ib hia hib
    rcases List.mem_singleton.1 hb with rfl
    intro hlinks
    exact hfresh ib hib (hlinks ▸ h.2 a ha ia hia)
  · intro e he it hit
    rcases List.mem_append.1 he with he' | he'
    · exact hsub _ (h.2 e he' it hit)
    · rcases List.mem_singleton.1 he' with rfl
      exact hin it hit

theorem pick_fallback_spec (items : List Item) (t : Topic) (used : List Str)
    (fb : Item) (h : pick_fallback_item items t used = some fb) :
    fb.link ∉ used ∧ fb ∈ items := by
  unfold pick_fallback_item at h
  split_ifs at h with h1 h2 h3
  all_goals first
  | exact Option.noConfusion h
  | · have hm := List.mem_filter.1 (List.mem_of_find?_eq_some h)
      exact ⟨by simpa using hm.2, hm.1⟩

theorem entryLink_eq (c : Entry) (it : Item) (h : c.item = some it) :
    entryLink c = it.link := by
  unfold entryLink
  rw [h]

theorem floorLoop_spec (mpt : Int) (ranked : List Entry) : ∀ (used : List Str) (count : Int),
    (∀ e ∈ (floorLoop mpt ranked used count).1, e ∈ ranked) ∧
    (∀ l ∈ used, l ∈ (floorLoop mpt ranked used count).2.1) ∧
    (floorLoop mpt ranked used count).2.2 =
      count + ((floorLoop mpt ranked used count).1.length : Int) ∧
    (∀ acc, LinksOK acc used →
      LinksOK (acc ++ (floorLoop mpt ranked used count).1)
        (floorLoop mpt ranked used count).2.1) := by
  induction ranked with
  | nil =>
      intro used count
      refine ⟨by simp [floorLoop], by simp [floorLoop], by simp [floorLoop], ?_⟩
      intro acc hacc
      simpa [floorLoop] using hacc
  | cons c rest ih =>
      intro used count
      by_cases hused : entryLink c ∈ used
      · have hred : floorLoop mpt (c :: rest) used count = floorLoop mpt rest used count := by
          simp [floorLoop, hused]
        rw [hred]
        obtain ⟨i1, i2, i3, i4⟩ := ih used count
        exact ⟨fun e he => List.mem_cons_of_mem _ (i1 e he), i2, i3, i4⟩
      · by_cases hcnt : count + 1 ≥ mpt
        · have hred : floorLoop mpt (c :: rest) used count =
              ([c], entryLink c :: used, count + 1) := by
            simp [floorLoop, hused, hcnt]
          rw [hred]
          refine ⟨?_, ?_, by simp, ?_⟩
          · intro e he
            rcases List.mem_singleton.1 he with rfl
            exact List.mem_cons_self _ _
          · intro l hl
            exact List.mem_cons_of_mem _ hl
          · intro acc hacc
            refine LinksOK_snoc acc used hacc c _ (fun l hl => List.mem_cons_of_mem _ hl)
              ?_ ?_
            · intro it hit
              rw [← entryLink_eq c it hit]
              exact hused
            · intro it hit
              rw [← entryLink_eq c it hit]
              exact List.mem_cons_self _ _
        · have hred : floorLoop mpt (c :: rest) used count =
              ((c :: (floorLoop mpt rest (entryLink c :: used) (count + 1)).1),
               (floorLoop mpt rest (entryLink c :: used) (count + 1)).2.1,
               (floorLoop mpt rest (entryLink c :: used) (count + 1)).2.2) := by
            simp [floorLoop, hused, hcnt]
          rw [hred]
          obtain ⟨i1, i2, i3, i4⟩ := ih (entryLink c :: used) (count + 1)
          refine ⟨?_, ?_, ?_, ?_⟩
          · intro e he
            rcases List.mem_cons.1 he with rfl | he'
            · exact List.mem_cons_self _ _
            · exact List.mem_cons_of_mem _ (i1 e he')
          · intro l hl
            exact i2 l (List.mem_cons_of_mem _ hl)
          · rw [i3]
            simp only [List.length_cons]
            push_cast
            ring
          · intro acc hacc
            have hsnoc : LinksOK (acc ++ [c]) (entryLink c :: used) := by
              refine LinksOK_snoc acc used hacc c _ (fun l hl => List.mem_cons_of_mem _ hl)
                ?_ ?_
              · intro it hit
                rw [← entryLink_eq c it hit]
                exact hused
              · intro it hit
                rw [← entryLink_eq c it hit]
                exact List.mem_cons_self _ _
            have := i4 (acc ++ [c]) hsnoc
            rwa [List.append_assoc, List.singleton_append] at this

theorem topicBlock_spec (items : List Item) (tmap : Str → List Str) (mpt : Int)
    (d : List (Str × List Entry)) (t : Topic) (used : List Str)
    (enabled : List Topic) (hd : GoodPairs enabled d) :
    (∀ l ∈ used, l ∈ (topicBlock items tmap mpt d t used).2) ∧
    (∀ acc, LinksOK acc used →
      LinksOK (acc ++ (topicBlock items tmap mpt d t used).1)
        (topicBlock items tmap mpt d t used).2) ∧
    (∀ e ∈ (topicBlock items tmap mpt d t used).1, e.topic_id = t.id) ∧
    (1 ≤ mpt → (topicBlock items tmap mpt d t used).1 ≠ []) ∧
    (∀ e ∈ (topicBlock items tmap mpt d t used).1, EProps enabled e) ∧
    (∃ strictPart tail : List Entry,
      (topicBlock items tmap mpt d t used).1 = strictPart ++ tail ∧
      (∀ e ∈ strictPart, e.is_fallback = false ∧ e.item ≠ none) ∧
      (tail = [] ∨ (∃ fb : Item, tail = [fallbackEntry t tmap fb]) ∨
        tail = [placeholderEntry t tmap])) := by
  obtain ⟨f1, f2, f3, f4⟩ := floorLoop_spec mpt (dgetD t.id [] d) used 0
  have hgood : ∀ e ∈ (floorLoop mpt (dgetD t.id [] d) used 0).1,
      e.is_fallback = false ∧ (∃ it : Item, e.item = some it) ∧
        e.topic_id = t.id ∧ ∃ t' ∈ enabled, t'.min_score ≤ e.score := by
    intro e he
    obtain ⟨h1, h2, h3, t', ht', _, hs⟩ := dgetD_good enabled d hd t.id e (f1 e he)
    exact ⟨h1, h2, h3, t', ht', hs⟩
  have heprops : ∀ e ∈ (floorLoop mpt (dgetD t.id [] d) used 0).1, EProps enabled e := by
    intro e he
    obtain ⟨h1, h2, _, hrest⟩ := hgood e he
    refine ⟨(fun hf => by simp [h1] at hf), ?_, fun _ _ => hrest⟩
    intro hnone
    obtain ⟨it, hit⟩ := h2
    rw [hnone] at hit
    cases hit
  have hstrict : ∀ e ∈ (floorLoop mpt (dgetD t.id [] d) used 0).1,
      e.is_fallback = false ∧ e.item ≠ none := by
    intro e he
    obtain ⟨h1, ⟨it, hit⟩, _, _⟩ := hgood e he
    exact ⟨h1, by simp [hit]⟩
  by_cases hlt : (floorLoop mpt (dgetD t.id [] d) used 0).2.2 < mpt
  · rcases hfb : pick_fallback_item items t (floorLoop mpt (dgetD t.id [] d) used 0).2.1
        with _ | fb
    · have hred : topicBlock items tmap mpt d t used =
          ((floorLoop mpt (dgetD t.id [] d) used 0).1 ++ [placeholderEntry t tmap],
           (floorLoop mpt (dgetD t.id [] d) used 0).2.1) := by
        simp [topicBlock, hlt, hfb]
      rw [hred]
      refine ⟨f2, ?_, ?_, fun _ => by simp, ?_,
        ⟨(floorLoop mpt (dgetD t.id [] d) used 0).1, [placeholderEntry t tmap], rfl,
         hstrict, Or.inr (Or.inr rfl)⟩⟩
      · intro acc hacc
        rw [← List.append_assoc]
        refine LinksOK_snoc _ _ (f4 acc hacc) _ _ (fun l hl => hl) ?_ ?_
        · intro it hit
          cases hit
        · intro it hit
          cases hit
      · intro e he
        rcases List.mem_append.1 he with he' | he'
        · exact (hgood e he').2.2.1
        · rcases List.mem_singleton.1 he' with rfl
          rfl
      · intro e he
        rcases List.mem_append.1 he with he' | he'
        · exact heprops e he'
        · rcases List.mem_singleton.1 he' with rfl
          exact ⟨(fun hf => by cases hf), (fun _ => ⟨rfl, rfl⟩),
            (fun _ hne => absurd rfl hne)⟩
    · obtain ⟨hfb1, _⟩ := pick_fallback_spec items t _ fb hfb
      have hred : topicBlock items tmap mpt d t used =
          ((floorLoop mpt (dgetD t.id [] d) used 0).1 ++ [fallbackEntry t tmap fb],
           fb.link :: (floorLoop mpt (dgetD t.id [] d) used 0).2.1) := by
        simp [topicBlock, hlt, hfb]
      rw [hred]
      refine ⟨?_, ?_, ?_, fun _ => by simp, ?_,
        ⟨(floorLoop mpt (dgetD t.id [] d) used 0).1, [fallbackEntry t tmap fb], rfl,
         hstrict, Or.inr (Or.inl ⟨fb, rfl⟩)⟩⟩
      · intro l hl
        exact List.mem_cons_of_mem _ (f2 l hl)
      · intro acc hacc
        rw [← List.append_assoc]
        refine LinksOK_snoc _ _ (f4 acc hacc) _ _
          (fun l hl => List.mem_cons_of_mem _ hl) ?_ ?_
        · intro it hit
          cases hit
          exact hfb1
        · intro it hit
          cases hit
          exact List.mem_cons_self _ _
      · intro e he
        rcases List.mem_append.1 he with he' | he'
        · exact (hgood e he').2.2.1
        · rcases List.mem_singleton.1 he' with rfl
          rfl
      · intro e he
        rcases List.mem_append.1 he with he' | he'
        · exact heprops e he'
        · rcases List.mem_singleton.1 he' with rfl
          exact ⟨(fun _ => ⟨rfl, (by simp [fallbackEntry])⟩), (fun hn => by cases hn),
            (fun hf _ => by cases hf)⟩
  · have hred : topicBlock items tmap mpt d t used =
        ((floorLoop mpt (dgetD t.id [] d) used 0).1,
         (floorLoop mpt (dgetD t.id [] d) used 0).2.1) := by
      simp [topicBlock, hlt]
    rw [hred]
    refine ⟨f2, f4, fun e he => (hgood e he).2.2.1, ?_, heprops,
      ⟨(floorLoop mpt (dgetD t.id [] d) used 0).1, [],
       (List.append_nil _).symm, hstrict, Or.inl rfl⟩⟩
    intro hmpt
    have hlen : (1 : Int) ≤ ((floorLoop mpt (dgetD t.id [] d) used 0).1.length : Int) := by
      have := f3
      omega
    intro hnil
    rw [hnil] at hlen
    simp at hlen

theorem pass1_spec (items : List Item) (tmap : Str → List Str) (mpt : Int)
    (d : List (Str × List Entry)) (enabled : List Topic) (hd : GoodPairs enabled d) :
    ∀ (ts : List Topic) (acc : List Entry) (used : List Str), LinksOK acc used →
      (∀ l ∈ used, l ∈ (pass1 items tmap mpt d ts acc used).2) ∧
      LinksOK (pass1 items tmap mpt d ts acc used).1 (pass1 items tmap mpt d ts acc used).2 ∧
      (∃ blocks : List (List Entry),
        (pass1 items tmap mpt d ts acc used).1 = acc ++ blocks.flatten ∧
        List.Forall₂ (fun b t => (∀ e ∈ b, e.topic_id = t.id) ∧ (1 ≤ mpt → b ≠ []) ∧
          ∃ strictPart tail : List Entry, b = strictPart ++ tail ∧
            (∀ e ∈ strictPart, e.is_fallback = false ∧ e.item ≠ none) ∧
            (tail = [] ∨ (∃ fb : Item, tail = [fallbackEntry t tmap fb]) ∨
              tail = [placeholderEntry t tmap]))
          blocks ts) ∧
      (∀ e ∈ (pass1 items tmap mpt d ts acc used).1, e ∈ acc ∨ EProps enabled e) := by
  intro ts
  induction ts with
  | nil =>
      intro acc used hacc
      refine ⟨fun l hl => hl, hacc, ⟨[], by simp [pass1], List.Forall₂.nil⟩, ?_⟩
      intro e he
      exact Or.inl he
  | cons t ts ih =>
      intro acc used hacc
      obtain ⟨t1, t2, t3, t4, t5, t6⟩ := topicBlock_spec items tmap mpt d t used enabled hd
      have hacc' := t2 acc hacc
      obtain ⟨u1, u2, ⟨blocks, hdec, hfa⟩, u4⟩ :=
        ih (acc ++ (topicBlock items tmap mpt d t used).1)
           (topicBlock items tmap mpt d t used).2 hacc'
      have hred : pass1 items tmap mpt d (t :: ts) acc used =
          pass1 items tmap mpt d ts (acc ++ (topicBlock items tmap mpt d t used).1)
            (topicBlock items tmap mpt d t used).2 := rfl
      rw [hred]
      refine ⟨fun l hl => u1 l (t1 l hl), u2, ?_, ?_⟩
      · refine ⟨(topicBlock items tmap mpt d t used).1 :: blocks, ?_,
          List.Forall₂.cons ⟨t3, t4, t6⟩ hfa⟩
        rw [hdec, List.append_assoc, List.flatten_cons]
      · intro e he
        rcases u4 e he with h' | h'
        · rcases List.mem_append.1 h' with h'' | h''
          · exact Or.inl h''
          · exact Or.inr (t5 e h'')
        · exact Or.inr h'

theorem realCountZ_append (a b : List Entry) :
    realCountZ (a ++ b) = realCountZ a + realCountZ b := by
  simp only [realCountZ, List.filter_append, List.length_append]
  push_cast
  ring

theorem realCountZ_single_le (c : Entry) : realCountZ [c] ≤ 1 := by
  by_cases h : c.item.isSome
  · simp [realCountZ, h]
  · simp [realCountZ, h]

theorem fillLoop_decomp (mi : Int) (rem : List Entry) : ∀ (acc : List Entry) (used : List Str),
    ∃ added : List Entry, fillLoop mi rem acc used = acc ++ added ∧ added.Sublist rem := by
  induction rem with
  | nil =>
      intro acc used
      exact ⟨[], by simp [fillLoop], List.nil_sublist _⟩
  | cons c rest ih =>
      intro acc used
      by_cases hstop : realCountZ acc ≥ mi
      · exact ⟨[], by simp [fillLoop, hstop], List.nil_sublist _⟩
      · by_cases hused : entryLink c ∈ used
        · obtain ⟨added, hred, hsub⟩ := ih acc used
          refine ⟨added, ?_, hsub.cons c⟩
          rw [← hred]
          simp [fillLoop, hstop, hused]
        · obtain ⟨added, hred, hsub⟩ := ih (acc ++ [c]) (entryLink c :: used)
          refine ⟨c :: added, ?_, hsub.cons₂ c⟩
          have : fillLoop mi (c :: rest) acc used =
              fillLoop mi rest (acc ++ [c]) (entryLink c :: used) := by
            simp [fillLoop, hstop, hused]
          rw [this, hred, List.append_assoc, List.singleton_append]

theorem fillLoop_links (mi : Int) (rem : List Entry) : ∀ (acc : List Entry) (used : List Str),
    LinksOK acc used → ∃ u', LinksOK (fillLoop mi rem acc used) u' := by
  induction rem with
  | nil =>
      intro acc used hacc
      exact ⟨used, by simpa [fillLoop] using hacc⟩
  | cons c rest ih =>
      intro acc used hacc
      by_cases hstop : realCountZ acc ≥ mi
      · exact ⟨used, by simpa [fillLoop, hstop] using hacc⟩
      · by_cases hused : entryLink c ∈ used
        · obtain ⟨u', hu'⟩ := ih acc used hacc
          exact ⟨u', by simpa [fillLoop, hstop, hused] using hu'⟩
        · have hsnoc : LinksOK (acc ++ [c]) (entryLink c :: used) := by
            refine LinksOK_snoc acc used hacc c _ (fun l hl => List.mem_cons_of_mem _ hl)
              ?_ ?_
            · intro it hit
              rw [← entryLink_eq c it hit]
              exact hused
            · intro it hit
              rw [← entryLink_eq c it hit]
              exact List.mem_cons_self _ _
          obtain ⟨u', hu'⟩ := ih (acc ++ [c]) (entryLink c :: used) hsnoc
          exact ⟨u', by simpa [fillLoop, hstop, hused] using hu'⟩

theorem fillLoop_count (mi : Int) (rem : List Entry) : ∀ (acc : List Entry) (used : List Str),
    realCountZ (fillLoop mi rem acc used) ≤ max mi (realCountZ acc) := by
  induction rem with
  | nil =>
      intro acc used
      simp only [fillLoop]
      exact le_max_right _ _
  | cons c rest ih =>
      intro acc used
      by_cases hstop : realCountZ acc ≥ mi
      · simp only [fillLoop, hstop, if_true]
        exact le_max_right _ _
      · by_cases hused : entryLink c ∈ used
        · have : fillLoop mi (c :: rest) acc used = fillLoop mi rest acc used := by
            simp [fillLoop, hstop, hused]
          rw [this]
          exact ih acc used
        · have hred : fillLoop mi (c :: rest) acc used =
              fillLoop mi rest (acc ++ [c]) (entryLink c :: used) := by
            simp [fillLoop, hstop, hused]
          rw [hred]
          have h1 := ih (acc ++ [c]) (entryLink c :: used)
          have h2 : realCountZ (acc ++ [c]) ≤ mi := by
            have := realCountZ_single_le c
            rw [realCountZ_append]
            omega
          have h3 : max mi (realCountZ (acc ++ [c])) = mi := max_eq_left h2
          rw [h3] at h1
          exact le_trans h1 (le_max_left _ _)

theorem remainingOf_aux (used : List Str) (e : Entry) :
    ∀ (d : List (Str × List Entry)) (acc : List Entry),
      e ∈ d.foldl (fun acc kv => acc ++ kv.2.filter (fun c => entryLink c ∉ used)) acc →
      e ∈ acc ∨ ∃ kv ∈ d, e ∈ kv.2 := by
  intro d
  induction d with
  | nil =>
      intro acc he
      exact Or.inl he
  | cons kv tl ih =>
      intro acc he
      simp only [List.foldl_cons] at he
      rcases ih _ he with h' | ⟨kv', hkv', he'⟩
      · rcases List.mem_append.1 h' with h'' | h''
        · exact Or.inl h''
        · exact Or.inr ⟨kv, List.mem_cons_self _ _, (List.mem_filter.1 h'').1⟩
      · exact Or.inr ⟨kv', List.mem_cons_of_mem _ hkv', he'⟩

theorem remainingOf_mem (d : List (Str × List Entry)) (used : List Str) (e : Entry)
    (he : e ∈ remainingOf d used) : ∃ kv ∈ d, e ∈ kv.2 := by
  rcases remainingOf_aux used e d [] he with h | h
  · cases h
  · exact h

theorem pass1Entries_eq (items : List Item) (topics : List Topic) (mpt : Int)
    (tmap : Str → List Str) :
    pass1Entries items topics mpt tmap =
      (pass1 items tmap mpt (buildDict items tmap (topics.filter (fun t => t.enabled)))
        (topics.filter (fun t => t.enabled)) [] []).1 := rfl

theorem pick_master (items : List Item) (topics : List Topic) (mi mpt : Int)
    (tmap : Str → List Str) :
    ∃ p2 : List Entry,
      pick_by_topic items topics mi mpt tmap = pass1Entries items topics mpt tmap ++ p2 ∧
      List.Pairwise (fun a b => b.score ≤ a.score) p2 ∧
      (∀ e ∈ p2, e.is_fallback = false ∧ (∃ it : Item, e.item = some it) ∧
        ∃ t ∈ topics.filter (fun t => t.enabled), t.min_score ≤ e.score) := by
  by_cases hen : (topics.filter (fun t => t.enabled)).isEmpty
  · refine ⟨[], ?_, List.Pairwise.nil, by simp⟩
    have h1 : pick_by_topic items topics mi mpt tmap = [] := by
      simp [pick_by_topic, hen]
    have h2 : pass1Entries items topics mpt tmap = [] := by
      rw [pass1Entries_eq]
      rw [List.isEmpty_iff] at hen
      rw [hen]
      rfl
    rw [h1, h2]
    rfl
  · by_cases hrc : realCountZ (pass1 items tmap mpt
        (buildDict items tmap (topics.filter (fun t => t.enabled)))
        (topics.filter (fun t => t.enabled)) [] []).1 < mi
    · obtain ⟨added, hred, hsub⟩ := fillLoop_decomp mi
        (sortDescScore (remainingOf (buildDict items tmap (topics.filter (fun t => t.enabled)))
          (pass1 items tmap mpt (buildDict items tmap (topics.filter (fun t => t.enabled)))
            (topics.filter (fun t => t.enabled)) [] []).2))
        (pass1 items tmap mpt (buildDict items tmap (topics.filter (fun t => t.enabled)))
          (topics.filter (fun t => t.enabled)) [] []).1
        (pass1 items tmap mpt (buildDict items tmap (topics.filter (fun t => t.enabled)))
          (topics.filter (fun t => t.enabled)) [] []).2
      refine ⟨added, ?_, ?_, ?_⟩
      · rw [pass1Entries_eq, ← hred]
        simp [pick_by_topic, hen, hrc]
      · exact (sortDescScore_pairwise _).sublist hsub
      · intro e he
        have hmem : e ∈ sortDescScore (remainingOf
            (buildDict items tmap (topics.filter (fun t => t.enabled)))
            (pass1 items tmap mpt (buildDict items tmap (topics.filter (fun t => t.enabled)))
              (topics.filter (fun t => t.enabled)) [] []).2) := hsub.mem he
        rw [sortDescScore_mem] at hmem
        obtain ⟨kv, hkv, he'⟩ := remainingOf_mem _ _ e hmem
        obtain ⟨h1, h2, _, t, ht, _, hs⟩ :=
          buildDict_good items tmap (topics.filter (fun t => t.enabled)) kv hkv e he'
        exact ⟨h1, h2, t, ht, hs⟩
    · refine ⟨[], ?_, List.Pairwise.nil, by simp⟩
      rw [pass1Entries_eq, List.append_nil]
      simp [pick_by_topic, hen, hrc]

theorem pass1Entries_blocks (items : List Item) (topics : List Topic) (mpt : Int)
    (tmap : Str → List Str) :
    ∃ blocks : List (List Entry),
      pass1Entries items topics mpt tmap = blocks.flatten ∧
      List.Forall₂ (fun b t => (∀ e ∈ b, e.topic_id = t.id) ∧ (1 ≤ mpt → b ≠ []) ∧
        ∃ strictPart tail : List Entry, b = strictPart ++ tail ∧
          (∀ e ∈ strictPart, e.is_fallback = false ∧ e.item ≠ none) ∧
          (tail = [] ∨ (∃ fb : Item, tail = [fallbackEntry t tmap fb]) ∨
            tail = [placeholderEntry t tmap]))
        blocks (topics.filter (fun t => t.enabled)) := by
  obtain ⟨_, _, ⟨blocks, hdec, hfa⟩, _⟩ :=
    pass1_spec items tmap mpt (buildDict items tmap (topics.filter (fun t => t.enabled)))
      (topics.filter (fun t => t.enabled))
      (buildDict_good items tmap (topics.filter (fun t => t.enabled)))
      (topics.filter (fun t => t.enabled)) [] [] LinksOK_nil
  refine ⟨blocks, ?_, hfa⟩
  rw [pass1Entries_eq, hdec]
  rfl

theorem pick_eprops (items : List Item) (topics : List Topic) (mi mpt : Int)
    (tmap : Str → List Str) :
    ∀ e ∈ pick_by_topic items topics mi mpt tmap,
      EProps (topics.filter (fun t => t.enabled)) e := by
  intro e he
  obtain ⟨p2, hdec, _, hp2⟩ := pick_master items topics mi mpt tmap
  rw [hdec] at he
  rcases List.mem_append.1 he with he' | he'
  · obtain ⟨_, _, _, hprops⟩ :=
      pass1_spec items tmap mpt (buildDict items tmap (topics.filter (fun t => t.enabled)))
        (topics.filter (fun t => t.enabled))
        (buildDict_good items tmap (topics.filter (fun t => t.enabled)))
        (topics.filter (fun t => t.enabled)) [] [] LinksOK_nil
    rw [pass1Entries_eq] at he'
    rcases hprops e he' with h | h
    · cases h
    · exact h
  · obtain ⟨h1, h2, t, ht, hs⟩ := hp2 e he'
    refine ⟨(fun hf => by simp [h1] at hf), ?_, fun _ _ => ⟨t, ht, hs⟩⟩
    intro hnone
    obtain ⟨it, hit⟩ := h2
    rw [hnone] at hit
    cases hit

theorem forall₂_mem_right {α β : Type} {R : α → β → Prop} :
    ∀ {as : List α} {bs : List β}, List.Forall₂ R as bs → ∀ b ∈ bs, ∃ a ∈ as, R a b := by
  intro as bs h
  induction h with
  | nil =>
      intro b hb
      cases hb
  | cons hR _ ih =>
      intro b hb
      rcases List.mem_cons.1 hb with rfl | hb'
      · exact ⟨_, List.mem_cons_self _ _, hR⟩
      · obtain ⟨a, ha, hab⟩ := ih b hb'
        exact ⟨a, List.mem_cons_of_mem _ ha, hab⟩

theorem realCountZ_nonneg (es : List Entry) : 0 ≤ realCountZ es :=
  Int.natCast_nonneg _

/-- C1: over any item pool, topic list, caps and trend-term map, no link
appears in more than one entry of the returned PickSet: any two distinct
entries carrying items carry items with different links. -/
theorem C1_pickset_link_unique (items : List Item) (topics : List Topic)
    (mi mpt : Int) (tmap : Str → List Str) :
    List.Pairwise
      (fun a b => ∀ ia ib : Item, a.item = some ia → b.item = some ib →
        ia.link ≠ ib.link)
      (pick_by_topic items topics mi mpt tmap) := by
  by_cases hen : (topics.filter (fun t => t.enabled)).isEmpty
  · have h1 : pick_by_topic items topics mi mpt tmap = [] := by
      simp [pick_by_topic, hen]
    rw [h1]
    exact List.Pairwise.nil
  · obtain ⟨_, hlok, _, _⟩ :=
      pass1_spec items tmap mpt (buildDict items tmap (topics.filter (fun t => t.enabled)))
        (topics.filter (fun t => t.enabled))
        (buildDict_good items tmap (topics.filter (fun t => t.enabled)))
        (topics.filter (fun t => t.enabled)) [] [] LinksOK_nil
    by_cases hrc : realCountZ (pass1 items tmap mpt
        (buildDict items tmap (topics.filter (fun t => t.enabled)))
        (topics.filter (fun t => t.enabled)) [] []).1 < mi
    · have hred : pick_by_topic items topics mi mpt tmap =
          fillLoop mi (sortDescScore (remainingOf
            (buildDict items tmap (topics.filter (fun t => t.enabled)))
            (pass1 items tmap mpt (buildDict items tmap (topics.filter (fun t => t.enabled)))
              (topics.filter (fun t => t.enabled)) [] []).2))
            (pass1 items tmap mpt (buildDict items tmap (topics.filter (fun t => t.enabled)))
              (topics.filter (fun t => t.enabled)) [] []).1
            (pass1 items tmap mpt (buildDict items tmap (topics.filter (fun t => t.enabled)))
              (topics.filter (fun t => t.enabled)) [] []).2 := by
        simp [pick_by_topic, hen, hrc]
      rw [hred]
      obtain ⟨u', hu'⟩ := fillLoop_links mi _ _ _ hlok
      exact hu'.1
    · have hred : pick_by_topic items topics mi mpt tmap =
          (pass1 items tmap mpt (buildDict items tmap (topics.filter (fun t => t.enabled)))
            (topics.filter (fun t => t.enabled)) [] []).1 := by
        simp [pick_by_topic, hen, hrc]
      rw [hred]
      exact hlok.1

/-- C2 counterexample: with `min_per_topic = 0` and an empty item pool, the
enabled topic `accounting` receives no entry at all (the floor loop takes
nothing and the placeholder branch is guarded by `count < min_per_topic`,
which is false), refuting the claim for runs with a non-positive floor. -/
theorem C2_cex_no_coverage_at_zero_floor :
    exTopicAcct.enabled = true ∧
    ¬ ∃ e ∈ pick_by_topic [] [exTopicAcct] 5 0 exTmap,
        e.topic_id = exTopicAcct.id := by
  decide

/-- C2 amended: whenever `min_per_topic ≥ 1` (as in every shipped
configuration), every enabled topic contributes at least one entry with its
topic id — a strict pick, a fallback, or a placeholder.  Scenario D: the
no-fallback topic `accounting` with zero strict matches yields exactly one
placeholder entry with `item = none`. -/
theorem C2_topic_coverage :
    (∀ (items : List Item) (topics : List Topic) (mi mpt : Int)
        (tmap : Str → List Str), 1 ≤ mpt → ∀ t ∈ topics, t.enabled = true →
      ∃ e ∈ pick_by_topic items topics mi mpt tmap, e.topic_id = t.id) ∧
    pick_by_topic [exItemD] [exTopicAcct] 5 1 exTmap =
      [placeholderEntry exTopicAcct exTmap] := by
  refine ⟨?_, by decide⟩
  intro items topics mi mpt tmap hmpt t ht htE
  have htf : t ∈ topics.filter (fun t => t.enabled) :=
    List.mem_filter.2 ⟨ht, by simp [htE]⟩
  obtain ⟨blocks, hdec, hfa⟩ := pass1Entries_blocks items topics mpt tmap
  obtain ⟨b, hb, hbid, hbne, _⟩ := forall₂_mem_right hfa t htf
  obtain ⟨e, he⟩ := List.exists_mem_of_ne_nil b (hbne hmpt)
  obtain ⟨p2, hres, _, _⟩ := pick_master items topics mi mpt tmap
  refine ⟨e, ?_, hbid e he⟩
  rw [hres, hdec]
  exact List.mem_append_left _ (List.mem_flatten.2 ⟨b, hb, he⟩)

/-- C3 counterexample: one enabled topic with one strict match,
`max_items = 0` and `min_per_topic = 1` produce one non-null entry, so the
non-null count exceeds `max_items` (Pass 1 never truncates). -/
theorem C3_cex_floor_exceeds_cap :
    ¬ (realCountZ (pick_by_topic [exItemD] [exTopicT3] 0 1 exTmap) ≤ 0) := by
  decide

/-- C3 amended: the number of non-null entries never exceeds the larger of
`max_items` and the number of non-null Pass-1 entries; equivalently, Pass 2
alone never pushes the count beyond `max_items` — only the deliberate
Pass-1 floor guarantee can. -/
theorem C3_nonnull_cap (items : List Item) (topics : List Topic) (mi mpt : Int)
    (tmap : Str → List Str) :
    realCountZ (pick_by_topic items topics mi mpt tmap) ≤
      max mi (realCountZ (pass1Entries items topics mpt tmap)) := by
  by_cases hen : (topics.filter (fun t => t.enabled)).isEmpty
  · have h1 : pick_by_topic items topics mi mpt tmap = [] := by
      simp [pick_by_topic, hen]
    rw [h1]
    exact le_trans (by simp [realCountZ])
      (le_trans (realCountZ_nonneg _) (le_max_right _ _))
  · rw [pass1Entries_eq]
    by_cases hrc : realCountZ (pass1 items tmap mpt
        (buildDict items tmap (topics.filter (fun t => t.enabled)))
        (topics.filter (fun t => t.enabled)) [] []).1 < mi
    · have hred : pick_by_topic items topics mi mpt tmap =
          fillLoop mi (sortDescScore (remainingOf
            (buildDict items tmap (topics.filter (fun t => t.enabled)))
            (pass1 items tmap mpt (buildDict items tmap (topics.filter (fun t => t.enabled)))
              (topics.filter (fun t => t.enabled)) [] []).2))
            (pass1 items tmap mpt (buildDict items tmap (topics.filter (fun t => t.enabled)))
              (topics.filter (fun t => t.enabled)) [] []).1
            (pass1 items tmap mpt (buildDict items tmap (topics.filter (fun t => t.enabled)))
              (topics.filter (fun t => t.enabled)) [] []).2 := by
        simp [pick_by_topic, hen, hrc]
      rw [hred]
      exact fillLoop_count mi _ _ _
    · have hred : pick_by_topic items topics mi mpt tmap =
          (pass1 items tmap mpt (buildDict items tmap (topics.filter (fun t => t.enabled)))
            (topics.filter (fun t => t.enabled)) [] []).1 := by
        simp [pick_by_topic, hen, hrc]
      rw [hred]
      exact le_max_right _ _

/-- C4: the PickSet is all Pass-1 entries first — one contiguous block per
enabled topic, in configured topic order, each block consisting of the
topic's floor picks (strict entries: non-fallback, with an item) followed
by at most one trailing fallback entry or placeholder entry — then the
Pass-2 fill entries in descending score order (fill entries are always
strict).  Scenario E: `max_items=3`, floors satisfied by scores 5.0 and
3.0, best remaining 4.0 → final order [50, 30, 40] tenths.  A second
concrete run exercises the intra-block order: a floor pick followed by the
topic's fallback entry inside one block. -/
theorem C4_pickset_order :
    (∀ (items : List Item) (topics : List Topic) (mi mpt : Int)
        (tmap : Str → List Str),
      ∃ (blocks : List (List Entry)) (p2 : List Entry),
        pick_by_topic items topics mi mpt tmap = blocks.flatten ++ p2 ∧
        List.Forall₂ (fun b t => (∀ e ∈ b, e.topic_id = t.id) ∧
          ∃ floorPicks tail : List Entry, b = floorPicks ++ tail ∧
            (∀ e ∈ floorPicks, e.is_fallback = false ∧ e.item ≠ none) ∧
            (tail = [] ∨ (∃ fb : Item, tail = [fallbackEntry t tmap fb]) ∨
              tail = [placeholderEntry t tmap])) blocks
          (topics.filter (fun t => t.enabled)) ∧
        List.Pairwise (fun a b => b.score ≤ a.score) p2 ∧
        (∀ e ∈ p2, e.is_fallback = false ∧ e.item ≠ none)) ∧
    pick_by_topic [exItemE1, exItemE2, exItemE3] [exTopicEA, exTopicEB] 3 1 exTmap =
      [strictEntry exTopicEA [] exItemE1 50 ["aa".toList, "bb".toList, "cc".toList] [],
       strictEntry exTopicEB [] exItemE2 30 ["dd".toList, "ee".toList] [],
       strictEntry exTopicEA [] exItemE3 40 ["aa".toList, "bb".toList] []] ∧
    pick_by_topic [exItemF1, exItemF2] [exTopicAim] 2 2 exTmap =
      [strictEntry exTopicAim [] exItemF1 20 ["qq".toList] [],
       fallbackEntry exTopicAim exTmap exItemF2] := by
  refine ⟨?_, by decide, by decide⟩
  intro items topics mi mpt tmap
  obtain ⟨p2, hres, hsort, hp2⟩ := pick_master items topics mi mpt tmap
  obtain ⟨blocks, hdec, hfa⟩ := pass1Entries_blocks items topics mpt tmap
  refine ⟨blocks, p2, by rw [hres, hdec], hfa.imp (fun _ _ h => ⟨h.1, h.2.2⟩),
    hsort, ?_⟩
  intro e he
  obtain ⟨h1, ⟨it, hit⟩, _⟩ := hp2 e he
  exact ⟨h1, by simp [hit]⟩

/-- C7 counterexample: a topic with `min_score = 0` admits a strict
candidate at score 0 ≤ 0.5, so a score at or below the 0.5 marker does not
imply the entry is a fallback or a placeholder. -/
theorem C7_cex_low_strict_score :
    ∃ e ∈ pick_by_topic [exItemD] [exTopicT7] 5 1 exTmap,
      e.score ≤ 5 ∧ e.is_fallback = false ∧ e.item ≠ none := by
  decide

/-- C7 amended: fallback entries always carry the fixed marker score 0.5
(5 tenths) and an item, placeholder entries always carry score 0, no item
and no fallback flag; and provided every enabled topic's `min_score`
exceeds 0.5 (as in every shipped configuration), score ≤ 0.5 characterises
the fallback/placeholder tier. -/
theorem C7_marker_scores (items : List Item) (topics : List Topic) (mi mpt : Int)
    (tmap : Str → List Str) (e : Entry)
    (he : e ∈ pick_by_topic items topics mi mpt tmap) :
    (e.is_fallback = true → e.score = 5 ∧ e.item ≠ none) ∧
    (e.item = none → e.score = 0 ∧ e.is_fallback = false) ∧
    ((∀ t ∈ topics, t.enabled = true → 5 < t.min_score) → e.score ≤ 5 →
      e.is_fallback = true ∨ e.item = none) := by
  obtain ⟨ha, hb, hc⟩ := pick_eprops items topics mi mpt tmap e he
  refine ⟨ha, hb, ?_⟩
  intro hmin hle
  by_contra hno
  push_neg at hno
  obtain ⟨hnf, hni⟩ := hno
  have hnf' : e.is_fallback = false := by
    cases hfb : e.is_fallback
    · rfl
    · exact absurd hfb hnf
  obtain ⟨t, ht, hs⟩ := hc hnf' hni
  obtain ⟨ht', htE⟩ := List.mem_filter.1 ht
  have := hmin t ht' (by simpa using htE)
  omega

/-- C7 witness: the amended theorem applied to the placeholder entry of the
concrete Scenario-D run. -/
theorem C7_marker_scores_witness :
    (placeholderEntry exTopicAcct exTmap ∈
      pick_by_topic [exItemD] [exTopicAcct] 5 1 exTmap) ∧
    (((placeholderEntry exTopicAcct exTmap).is_fallback = true →
        (placeholderEntry exTopicAcct exTmap).score = 5 ∧
        (placeholderEntry exTopicAcct exTmap).item ≠ none) ∧
     ((placeholderEntry exTopicAcct exTmap).item = none →
        (placeholderEntry exTopicAcct exTmap).score = 0 ∧
        (placeholderEntry exTopicAcct exTmap).is_fallback = false) ∧
     ((∀ t ∈ [exTopicAcct], t.enabled = true → 5 < t.min_score) →
        (placeholderEntry exTopicAcct exTmap).score ≤ 5 →
        (placeholderEntry exTopicAcct exTmap).is_fallback = true ∨
        (placeholderEntry exTopicAcct exTmap).item = none)) :=
  ⟨by decide, C7_marker_scores [exItemD] [exTopicAcct] 5 1 exTmap
    (placeholderEntry exTopicAcct exTmap) (by decide)⟩

/-- C2 witness: the amended coverage theorem applied to the concrete
Scenario-D run. -/
theorem C2_topic_coverage_witness :
    ((1 : Int) ≤ 1) ∧ (exTopicAcct ∈ [exTopicAcct]) ∧ (exTopicAcct.enabled = true) ∧
    ∃ e ∈ pick_by_topic [exItemD] [exTopicAcct] 5 1 exTmap,
      e.topic_id = exTopicAcct.id :=
  ⟨by decide, by decide, by decide,
   C2_topic_coverage.1 [exItemD] [exTopicAcct] 5 1 exTmap (by decide)
     exTopicAcct (by decide) (by decide)⟩

theorem matureEntry_link (now : Int) (terms_l : List Str) (w : WEntry) :
    (matureEntry now terms_l w).link = w.link := rfl

theorem matureStep_fold (now : Int) (terms_l : List Str) (l : List WEntry) :
    ∀ (r0 d0 : List WEntry) (m0 f0 : Int),
      l.foldl (matureStep now terms_l) (r0, d0, m0, f0) =
        (r0 ++ l.filter (keepEntry now),
         d0 ++ (l.filter (fun w => !keepEntry now w)).map (matureEntry now terms_l),
         m0 + ((l.filter (fun w => !keepEntry now w)).length : Int),
         f0 + (((l.filter (fun w => !keepEntry now w)).filter
                 (fun w => !(matchedTerms terms_l w).isEmpty)).length : Int)) := by
  induction l with
  | nil =>
      intro r0 d0 m0 f0
      simp
  | cons w l ih =>
      intro r0 d0 m0 f0
      by_cases hk : keepEntry now w
      · have hstep : matureStep now terms_l (r0, d0, m0, f0) w =
            (r0 ++ [w], d0, m0, f0) := by
          simp [matureStep, hk]
        simp only [List.foldl_cons, hstep, ih, List.filter_cons, hk, if_true,
          Bool.not_true, Bool.false_eq_true, if_false]
        rw [List.append_assoc, List.singleton_append]
      · by_cases hm : (matchedTerms terms_l w).isEmpty
        · have hstep : matureStep now terms_l (r0, d0, m0, f0) w =
              (r0, d0 ++ [matureEntry now terms_l w], m0 + 1, f0) := by
            simp [matureStep, hk, hm]
          simp only [List.foldl_cons, hstep, ih, List.filter_cons, hk, Bool.false_eq_true,
            if_false, Bool.not_false, if_true, List.map_cons, hm, Bool.not_true,
            List.length_cons, Prod.mk.injEq]
          refine ⟨?_, ?_, ?_, ?_⟩ <;>
            first
            | trivial
            | (rw [List.append_assoc, List.singleton_append])
            | (push_cast; ring)
        · have hstep : matureStep now terms_l (r0, d0, m0, f0) w =
              (r0, d0 ++ [matureEntry now terms_l w], m0 + 1, f0 + 1) := by
            simp [matureStep, hk, hm]
          simp only [List.foldl_cons, hstep, ih, List.filter_cons, hk, Bool.false_eq_true,
            if_false, Bool.not_false, if_true, List.map_cons, hm, Bool.not_true,
            List.length_cons, Prod.mk.injEq]
          refine ⟨?_, ?_, ?_, ?_⟩ <;>
            first
            | trivial
            | (rw [List.append_assoc, List.singleton_append])
            | (push_cast; ring)

theorem mkWatchEntry_link (tid : Str) (p : Entry) (it : Item) (now dh : Int) :
    (mkWatchEntry tid p it now dh).link = it.link := rfl

theorem collectStep_fold (cfg : DelayCfg) (now : Int) (picks : List Entry) :
    ∀ (w0 : List WEntry) (seen : List Str) (counts : List (Str × Int)),
      ∃ added : List WEntry,
        (picks.foldl (collectStep cfg now) (w0, seen, counts)).1 = w0 ++ added ∧
        added.length ≤ picks.length ∧
        (∀ l ∈ seen, l ∈ (picks.foldl (collectStep cfg now) (w0, seen, counts)).2.1) ∧
        (∀ a ∈ added,
          a.link ∈ (picks.foldl (collectStep cfg now) (w0, seen, counts)).2.1 ∧
          a.link ∉ seen ∧ a.link ≠ []) ∧
        (added.map (fun a => a.link)).Nodup := by
  induction picks with
  | nil =>
      intro w0 seen counts
      refine ⟨[], by simp, by simp, fun l hl => hl, ?_, List.nodup_nil⟩
      intro a ha
      cases ha
  | cons p rest ih =>
      intro w0 seen counts
      simp only [List.foldl_cons]
      rcases hskip : collectStep cfg now (w0, seen, counts) p with ⟨w1, seen1, counts1⟩
      have hcases : (w1 = w0 ∧ seen1 = seen) ∨
          (∃ it : Item, p.item = some it ∧ it.link ∉ seen ∧ it.link ≠ [] ∧
            w1 = w0 ++ [mkWatchEntry (if p.topic_id = [] then "unknown".toList else p.topic_id)
              p it now cfg.delay_hours] ∧ seen1 = seen ++ [it.link]) := by
        unfold collectStep at hskip
        rcases hit : p.item with _ | it
        · rw [hit] at hskip
          cases hskip
          exact Or.inl ⟨rfl, rfl⟩
        · rw [hit] at hskip
          by_cases hs : p.score < cfg.min_score_to_watch
          · simp only [hs, if_true] at hskip
            cases hskip
            exact Or.inl ⟨rfl, rfl⟩
          · by_cases hl : it.link = [] ∨ it.link ∈ seen
            · simp only [hs, if_false, hl, if_true] at hskip
              cases hskip
              exact Or.inl ⟨rfl, rfl⟩
            · push_neg at hl
              by_cases hcap : dgetD (if p.topic_id = [] then "unknown".toList else p.topic_id)
                  0 counts + 1 > cfg.max_candidates_per_topic
              · simp only [hs, if_false, hcap, if_true,
                  show ¬(it.link = [] ∨ it.link ∈ seen) from by tauto] at hskip
                cases hskip
                exact Or.inl ⟨rfl, rfl⟩
              · simp only [hs, if_false, hcap,
                  show ¬(it.link = [] ∨ it.link ∈ seen) from by tauto] at hskip
                cases hskip
                exact Or.inr ⟨it, rfl, hl.2, hl.1, rfl, rfl⟩
      obtain ⟨added', hdec, hlen, hseen, hadd, hnodup⟩ := ih w1 seen1 counts1
      rcases hcases with ⟨rfl, rfl⟩ | ⟨it, hpit, hnew1, hnew2, rfl, rfl⟩
      · exact ⟨added', hdec, le_trans hlen (by simp), hseen, hadd, hnodup⟩
      · refine ⟨mkWatchEntry (if p.topic_id = [] then "unknown".toList else p.topic_id) p it now cfg.delay_hours :: added', ?_, by simpa using hlen,
          ?_, ?_, ?_⟩
        · rw [hdec, List.append_assoc, List.singleton_append]
        · intro l hl
          exact hseen l (List.mem_append_left _ hl)
        · intro a ha
          rcases List.mem_cons.1 ha with rfl | ha'
          · refine ⟨hseen _ (List.mem_append_right _ (List.mem_singleton_self _)), ?_, ?_⟩
            · rw [mkWatchEntry_link]
              exact hnew1
            · rw [mkWatchEntry_link]
              exact hnew2
          · obtain ⟨h1, h2, h3⟩ := hadd a ha'
            refine ⟨h1, fun hmem => h2 (List.mem_append_left _ hmem), h3⟩
        · refine List.nodup_cons.2 ⟨?_, hnodup⟩
          intro hmem
          obtain ⟨a, ha, hae⟩ := List.mem_map.1 hmem
          obtain ⟨_, h2, _⟩ := hadd a ha
          have hae' : a.link = it.link := by simpa [mkWatchEntry_link] using hae
          exact h2 (hae' ▸ List.mem_append_right _ (List.mem_singleton_self _))

theorem update_disabled_eq (cfg : DelayCfg) (picks : List Entry) (now : Int)
    (terms : List Str) (s : WState) (h : cfg.enabled = false) :
    update_delayed_watchlist cfg picks now terms s = (s, ⟨false, 0, 0, 0, 0⟩) := by
  simp [update_delayed_watchlist, h]

theorem update_enabled_eq (cfg : DelayCfg) (picks : List Entry) (now : Int)
    (terms : List Str) (s : WState) (h : cfg.enabled = true) :
    update_delayed_watchlist cfg picks now terms s =
      (⟨((picks.foldl (collectStep cfg now) (s.watching, seenLinks s, [])).1).filter
          (keepEntry now),
        (s.done ++ (((picks.foldl (collectStep cfg now)
              (s.watching, seenLinks s, [])).1).filter
            (fun w => !keepEntry now w)).map (matureEntry now (termsOf terms))).drop
          ((s.done ++ (((picks.foldl (collectStep cfg now)
                (s.watching, seenLinks s, [])).1).filter
              (fun w => !keepEntry now w)).map (matureEntry now (termsOf terms))).length
            - 500)⟩,
       ⟨true,
        sumCounts (picks.foldl (collectStep cfg now) (s.watching, seenLinks s, [])).2.2,
        ((((picks.foldl (collectStep cfg now) (s.watching, seenLinks s, [])).1).filter
            (fun w => !keepEntry now w)).length : Int),
        (((((picks.foldl (collectStep cfg now) (s.watching, seenLinks s, [])).1).filter
              (fun w => !keepEntry now w)).filter
            (fun w => !(matchedTerms (termsOf terms) w).isEmpty)).length : Int),
        ((((picks.foldl (collectStep cfg now) (s.watching, seenLinks s, [])).1).filter
            (keepEntry now)).length : Int)⟩) := by
  unfold update_delayed_watchlist
  simp only [h, Bool.not_true, Bool.false_eq_true, if_false, matureStep_fold,
    List.nil_append, zero_add]

theorem linksOf_mem_seen (s : WState) (l : Str) (hmem : l ∈ linksOf s) (hne : l ≠ []) :
    l ∈ seenLinks s := by
  obtain ⟨w, hw, rfl⟩ := List.mem_map.1 hmem
  exact List.mem_filterMap.2 ⟨w, hw, by simp [hne]⟩

theorem done_mem_seen (s : WState) (v : WEntry) (hv : v ∈ s.done) (hne : v.link ≠ []) :
    v.link ∈ seenLinks s :=
  linksOf_mem_seen s v.link
    (List.mem_map.2 ⟨v, List.mem_append_right _ hv, rfl⟩) hne

theorem update_nodup_step (cfg : DelayCfg) (picks : List Entry) (now : Int)
    (terms : List Str) (s : WState) (h : (linksOf s).Nodup) :
    (linksOf (update_delayed_watchlist cfg picks now terms s).1).Nodup := by
  by_cases hcfg : cfg.enabled = true
  · rw [update_enabled_eq cfg picks now terms s hcfg]
    obtain ⟨added, hdec, _, _, hadd, hnodup⟩ :=
      collectStep_fold cfg now picks s.watching (seenLinks s) []
    simp only [linksOf, List.map_append]
    set col1 := (picks.foldl (collectStep cfg now) (s.watching, seenLinks s, [])).1 with hcol
    set A := (col1.filter (keepEntry now)).map (fun w => w.link) with hA
    set B := s.done.map (fun w => w.link) with hB
    set C := (col1.filter (fun w => !keepEntry now w)).map (fun w => w.link) with hC
    set M := (col1.filter (fun w => !keepEntry now w)).map (matureEntry now (termsOf terms))
      with hM
    have hCmap : M.map (fun w => w.link) = C := by
      rw [hM, hC, List.map_map]
      rfl
    have hperm1 : List.Perm (A ++ C) (col1.map (fun w => w.link)) := by
      rw [hA, hC, ← List.map_append]
      exact (List.filter_append_perm (keepEntry now) col1).map _
    have htarget : (linksOf s ++ added.map (fun a => a.link)).Nodup := by
      refine List.nodup_append.2 ⟨h, hnodup, ?_⟩
      intro a ha hmem
      obtain ⟨w, hw, rfl⟩ := List.mem_map.1 hmem
      obtain ⟨_, hnseen, hne⟩ := hadd w hw
      exact hnseen (linksOf_mem_seen s w.link ha hne)
    have hperm : List.Perm (A ++ (B ++ C)) (linksOf s ++ added.map (fun a => a.link)) := by
      have s1 : List.Perm (A ++ (B ++ C)) (A ++ (C ++ B)) :=
        List.Perm.append_left _ List.perm_append_comm
      have s2 : List.Perm (A ++ (C ++ B)) ((A ++ C) ++ B) := by
        rw [List.append_assoc]
      have s3 : List.Perm ((A ++ C) ++ B) (col1.map (fun w => w.link) ++ B) :=
        List.Perm.append_right _ hperm1
      have s4 : col1.map (fun w => w.link) ++ B =
          s.watching.map (fun w => w.link) ++ (added.map (fun w => w.link) ++ B) := by
        rw [hdec, List.map_append, List.append_assoc]
      have s5 : List.Perm
          (s.watching.map (fun w => w.link) ++ (added.map (fun w => w.link) ++ B))
          (s.watching.map (fun w => w.link) ++ (B ++ added.map (fun w => w.link))) :=
        List.Perm.append_left _ List.perm_append_comm
      have s6 : s.watching.map (fun w => w.link) ++ (B ++ added.map (fun w => w.link)) =
          linksOf s ++ added.map (fun a => a.link) := by
        rw [linksOf, hB, List.map_append, List.append_assoc]
      exact ((((s1.trans s2).trans s3).trans (s4 ▸ s5)).trans (s6 ▸ List.Perm.refl _))
    have hbig : (A ++ (B ++ C)).Nodup := hperm.symm.nodup htarget
    refine List.Nodup.sublist ?_ hbig
    refine List.Sublist.append_left ?_ _
    rw [← hCmap, ← List.map_append]
    exact ((s.done ++ M).drop_sublist _).map _
  · have hcfg' : cfg.enabled = false := by
      cases hc : cfg.enabled
      · rfl
      · exact absurd hc hcfg
    rw [update_disabled_eq cfg picks now terms s hcfg']
    exact h

/-- C8: an item whose link is already tracked by the persisted state is
never added to `watching` again (every output watching entry with a known
link is an old watching entry), and the one-entry-per-link invariant across
`watching` and `done` is preserved over any number of consecutive runs. -/
theorem C8_watchlist_link_dedup :
    (∀ (cfg : DelayCfg) (picks : List Entry) (now : Int) (terms : List Str)
        (s : WState),
      ∀ w ∈ (update_delayed_watchlist cfg picks now terms s).1.watching,
        w.link ∈ linksOf s → w ∈ s.watching) ∧
    (∀ (s : WState) (rs : List RunIn),
      (linksOf s).Nodup → (linksOf (runFold s rs)).Nodup) := by
  constructor
  · intro cfg picks now terms s w hw hlink
    by_cases hcfg : cfg.enabled = true
    · rw [update_enabled_eq cfg picks now terms s hcfg] at hw
      obtain ⟨added, hdec, _, _, hadd, _⟩ :=
        collectStep_fold cfg now picks s.watching (seenLinks s) []
      have hw1 : w ∈ (picks.foldl (collectStep cfg now)
          (s.watching, seenLinks s, [])).1 := (List.mem_filter.1 hw).1
      rw [hdec] at hw1
      rcases List.mem_append.1 hw1 with hw2 | hw2
      · exact hw2
      · obtain ⟨_, hnseen, hne⟩ := hadd w hw2
        exact absurd (linksOf_mem_seen s w.link hlink hne) hnseen
    · have hcfg' : cfg.enabled = false := by
        cases hc : cfg.enabled
        · rfl
        · exact absurd hc hcfg
      rw [update_disabled_eq cfg picks now terms s hcfg'] at hw
      exact hw
  · intro s rs
    induction rs generalizing s with
    | nil =>
        intro h
        exact h
    | cons r rs ih =>
        intro h
        exact ih _ (update_nodup_step r.cfg r.picks r.now r.terms s h)

theorem matchedTerms_ne_iff (terms : List Str) (w : WEntry) :
    (!(matchedTerms (termsOf terms) w).isEmpty) = true ↔
      ∃ x ∈ terms, pyLower (pyStrip x) ≠ [] ∧
        containsSub (pyLower (pyStrip x)) (watchBlob w) = true := by
  constructor
  · intro h
    have hne : matchedTerms (termsOf terms) w ≠ [] := by
      intro hnil
      rw [hnil] at h
      simp at h
    obtain ⟨t, ht⟩ := List.exists_mem_of_ne_nil _ hne
    obtain ⟨htl, hpred⟩ := List.mem_filter.1 ht
    obtain ⟨y, hy, rfl⟩ := List.mem_map.1 htl
    obtain ⟨hy', hyne⟩ := List.mem_filter.1 hy
    obtain ⟨x, hx, rfl⟩ := List.mem_map.1 hy'
    rw [Bool.and_eq_true] at hpred
    refine ⟨x, hx, ?_, hpred.2⟩
    intro hnil
    rw [hnil] at hpred
    simp at hpred
  · intro ⟨x, hx, hne, hcont⟩
    have hstrip : pyStrip x ≠ [] := by
      intro hnil
      rw [show pyLower (pyStrip x) = (pyStrip x).map Char.toLower from rfl, hnil] at hne
      simp at hne
    have htl : pyLower (pyStrip x) ∈ termsOf terms := by
      refine List.mem_map.2 ⟨pyStrip x, ?_, rfl⟩
      refine List.mem_filter.2 ⟨List.mem_map.2 ⟨x, hx, rfl⟩, by simp [hstrip]⟩
    have hmem : pyLower (pyStrip x) ∈ matchedTerms (termsOf terms) w := by
      refine List.mem_filter.2 ⟨htl, ?_⟩
      simp only [Bool.and_eq_true, Bool.not_eq_true', hcont, and_true]
      simp [hne]
    simp only [Bool.not_eq_true', List.isEmpty_eq_false]
    intro hnil
    rw [hnil] at hmem
    cases hmem

/-- C9: on a run with tracking enabled (and state small enough that the
500-entry `done` cap does not evict this run's maturations), every watching
entry whose parsed `due_at` is at or before `now` leaves `watching` and its
matured copy joins `done`, with `fermented = true` exactly when some
normalised current trend term is contained in the entry's lowercased
title+link text; entries due in the future stay in `watching`; and no entry
returns from `done` to `watching`. -/
theorem C9_maturation (cfg : DelayCfg) (picks : List Entry) (now : Int)
    (terms : List Str) (s : WState) (h1 : cfg.enabled = true)
    (h2 : s.done.length + s.watching.length + picks.length ≤ 500)
    (w : WEntry) (hw : w ∈ s.watching) :
    (∀ d : Int, fromisoformat w.due_at = some d → d ≤ now →
      w ∉ (update_delayed_watchlist cfg picks now terms s).1.watching ∧
      matureEntry now (termsOf terms) w ∈
        (update_delayed_watchlist cfg picks now terms s).1.done ∧
      ((matureEntry now (termsOf terms) w).fermented = some true ↔
        ∃ x ∈ terms, pyLower (pyStrip x) ≠ [] ∧
          containsSub (pyLower (pyStrip x)) (watchBlob w) = true)) ∧
    (∀ d : Int, fromisoformat w.due_at = some d → now < d →
      w ∈ (update_delayed_watchlist cfg picks now terms s).1.watching) ∧
    (∀ v ∈ (update_delayed_watchlist cfg picks now terms s).1.watching,
      v ∈ s.watching ∨ ¬ v ∈ s.done) := by
  obtain ⟨added, hdec, hlen, _, hadd, _⟩ :=
    collectStep_fold cfg now picks s.watching (seenLinks s) []
  rw [update_enabled_eq cfg picks now terms s h1]
  have hwcol : w ∈ (picks.foldl (collectStep cfg now) (s.watching, seenLinks s, [])).1 := by
    rw [hdec]
    exact List.mem_append_left _ hw
  refine ⟨?_, ?_, ?_⟩
  · intro d hp hd
    have hk : keepEntry now w = false := by
      simp only [keepEntry, hp]
      simpa using not_lt.2 hd
    refine ⟨?_, ?_, ?_⟩
    · intro hmem
      have := (List.mem_filter.1 hmem).2
      rw [hk] at this
      cases this
    · have hfil : w ∈ (picks.foldl (collectStep cfg now)
          (s.watching, seenLinks s, [])).1.filter (fun v => !keepEntry now v) :=
        List.mem_filter.2 ⟨hwcol, by simp [hk]⟩
      have hmem : matureEntry now (termsOf terms) w ∈
          s.done ++ ((picks.foldl (collectStep cfg now)
            (s.watching, seenLinks s, [])).1.filter
              (fun v => !keepEntry now v)).map (matureEntry now (termsOf terms)) :=
        List.mem_append_right _ (List.mem_map_of_mem _ hfil)
      have hsmall : (s.done ++ ((picks.foldl (collectStep cfg now)
          (s.watching, seenLinks s, [])).1.filter
            (fun v => !keepEntry now v)).map (matureEntry now (termsOf terms))).length
          ≤ 500 := by
        have hf := List.length_filter_le (fun v => !keepEntry now v)
          (picks.foldl (collectStep cfg now) (s.watching, seenLinks s, [])).1
        have hcl : (picks.foldl (collectStep cfg now)
            (s.watching, seenLinks s, [])).1.length =
            s.watching.length + added.length := by
          rw [hdec, List.length_append]
        simp only [List.length_append, List.length_map]
        omega
      have hdrop : (s.done ++ ((picks.foldl (collectStep cfg now)
          (s.watching, seenLinks s, [])).1.filter
            (fun v => !keepEntry now v)).map (matureEntry now (termsOf terms))).length
          - 500 = 0 := Nat.sub_eq_zero_of_le hsmall
      rw [hdrop, List.drop_zero]
      exact hmem
    · have hferm : (matureEntry now (termsOf terms) w).fermented =
          some (!(matchedTerms (termsOf terms) w).isEmpty) := rfl
      rw [hferm]
      simp only [Option.some.injEq]
      exact matchedTerms_ne_iff terms w
  · intro d hp hd
    have hk : keepEntry now w = true := by
      simp only [keepEntry, hp]
      simpa using hd
    exact List.mem_filter.2 ⟨hwcol, hk⟩
  · intro v hv
    have hvcol : v ∈ (picks.foldl (collectStep cfg now)
        (s.watching, seenLinks s, [])).1 := (List.mem_filter.1 hv).1
    rw [hdec] at hvcol
    rcases List.mem_append.1 hvcol with hv1 | hv1
    · exact Or.inl hv1
    · obtain ⟨_, hnseen, hne⟩ := hadd v hv1
      refine Or.inr ?_
      intro hvdone
      exact hnseen (done_mem_seen s v hvdone hne)

/-- C10: a watching entry whose stored `due_at` string does not parse stays
in `watching` unchanged (the `try/except` keeps it), is never counted in
the matured total, and the run completes normally. -/
theorem C10_unparseable_due_kept (cfg : DelayCfg) (picks : List Entry) (now : Int)
    (terms : List Str) (s : WState) (h1 : cfg.enabled = true)
    (w : WEntry) (hw : w ∈ s.watching) (hp : fromisoformat w.due_at = none) :
    w ∈ (update_delayed_watchlist cfg picks now terms s).1.watching ∧
    keepEntry now w = true ∧
    (update_delayed_watchlist cfg picks now terms s).2.matured_checked =
      ((((picks.foldl (collectStep cfg now) (s.watching, seenLinks s, [])).1).filter
        (fun v => !keepEntry now v)).length : Int) := by
  obtain ⟨added, hdec, _, _, _, _⟩ :=
    collectStep_fold cfg now picks s.watching (seenLinks s) []
  rw [update_enabled_eq cfg picks now terms s h1]
  have hk : keepEntry now w = true := by
    simp [keepEntry, hp]
  refine ⟨?_, hk, rfl⟩
  refine List.mem_filter.2 ⟨?_, hk⟩
  rw [hdec]
  exact List.mem_append_left _ hw

/-- C9 witness: the maturation theorem applied to the concrete state
`exWState` at hour 20, where `exW1` (due at hour 10) matures and ferments
on the trend term "AI". -/
theorem C9_maturation_witness :
    (exDelayCfg.enabled = true) ∧
    (exWState.done.length + exWState.watching.length + ([] : List Entry).length ≤ 500) ∧
    (exW1 ∈ exWState.watching) ∧
    ((∀ d : Int, fromisoformat exW1.due_at = some d → d ≤ 20 →
      exW1 ∉ (update_delayed_watchlist exDelayCfg [] 20 ["AI".toList] exWState).1.watching ∧
      matureEntry 20 (termsOf ["AI".toList]) exW1 ∈
        (update_delayed_watchlist exDelayCfg [] 20 ["AI".toList] exWState).1.done ∧
      ((matureEntry 20 (termsOf ["AI".toList]) exW1).fermented = some true ↔
        ∃ x ∈ ["AI".toList], pyLower (pyStrip x) ≠ [] ∧
          containsSub (pyLower (pyStrip x)) (watchBlob exW1) = true)) ∧
    (∀ d : Int, fromisoformat exW1.due_at = some d → (20 : Int) < d →
      exW1 ∈ (update_delayed_watchlist exDelayCfg [] 20 ["AI".toList] exWState).1.watching) ∧
    (∀ v ∈ (update_delayed_watchlist exDelayCfg [] 20 ["AI".toList] exWState).1.watching,
      v ∈ exWState.watching ∨ ¬ v ∈ exWState.done)) :=
  ⟨by decide, by decide, by decide,
   C9_maturation exDelayCfg [] 20 ["AI".toList] exWState (by decide) (by decide)
     exW1 (by decide)⟩

/-- C10 witness: the unparseable-entry theorem applied to `exW2`, whose
stored `due_at` is the unparseable string "zzz". -/
theorem C10_unparseable_due_kept_witness :
    (exDelayCfg.enabled = true) ∧
    (exW2 ∈ exWState.watching) ∧
    (fromisoformat exW2.due_at = none) ∧
    (exW2 ∈ (update_delayed_watchlist exDelayCfg [] 20 ["AI".toList] exWState).1.watching ∧
     keepEntry 20 exW2 = true ∧
     (update_delayed_watchlist exDelayCfg [] 20 ["AI".toList] exWState).2.matured_checked =
       (((([] : List Entry).foldl (collectStep exDelayCfg 20)
           (exWState.watching, seenLinks exWState, [])).1).filter
         (fun v => !keepEntry 20 v)).length) :=
  ⟨by decide, by decide, by decide,
   C10_unparseable_due_kept exDelayCfg [] 20 ["AI".toList] exWState (by decide)
     exW2 (by decide) (by decide)⟩

/-- C8 witness: the dedup theorem applied to the concrete state, with the
already-tracked pick `exPickOld` and one full run. -/
theorem C8_watchlist_link_dedup_witness :
    (exW2 ∈ (update_delayed_watchlist exDelayCfg [exPickOld] 20 ["AI".toList]
        exWState).1.watching) ∧
    (exW2.link ∈ linksOf exWState) ∧
    (exW2 ∈ exWState.watching) ∧
    ((linksOf exWState).Nodup) ∧
    ((linksOf (runFold exWState [⟨exDelayCfg, [exPickOld], 20, ["AI".toList]⟩])).Nodup) :=
  ⟨by decide, by decide,
   C8_watchlist_link_dedup.1 exDelayCfg [exPickOld] 20 ["AI".toList] exWState exW2
     (by decide) (by decide),
   by decide,
   C8_watchlist_link_dedup.2 exWState [⟨exDelayCfg, [exPickOld], 20, ["AI".toList]⟩]
     (by decide)⟩
